import Mathlib

/-!
# Verification of the chess rules engine (board, movement rules, check/mate)

This file is a shallow embedding, in Lean 4, of the Rust chess rules engine:
the `Board` abstraction with its reversible "temporal move" primitive
(`src/board/board.rs`), the movement rules (`src/moves/{line,diag,jump,pawn,
castle,util}.rs`), the check / checkmate evaluator (`src/check.rs`) and the
FEN piece construction (`src/notation/fen.rs`).

Modelling conventions:
* Rust `i32` coordinates become `Int`; `u32` sizes become `Nat`.
* `Vec<Vec<Option<Piece>>>` becomes `List (List (Option Piece))`.
* Fallible Rust functions returning `Result` become `Except`; Rust index
  panics (unchecked `self.board[r][c]` accesses) are modelled by `Option`
  results (`none` = abort) where a claim is about that behaviour, and are
  otherwise used under in-bounds hypotheses.
* The `dyn Move` trait objects form a closed set of five rule kinds, so they
  are embedded as the sum type `MoveRule` with a dispatching interpreter.
* The check evaluator and the castling rule are mutually recursive through
  `temporal_move` in the source; the embedding makes this recursion total
  with an explicit `fuel : Nat` parameter.  Every nested call runs at one
  fuel less; at fuel `0` the conservative default `false` / `[]` is
  returned.  All theorems are stated either uniformly in the fuel or at a
  concrete fuel large enough that the default is never reached.
-/

namespace Chess

/-- `Coord` from `src/board/mod.rs`: `{ row: i32, col: i32 }`. -/
structure Coord where
  row : Int
  col : Int
deriving DecidableEq, Repr

/-- `impl Add for Coord` (componentwise vector addition). -/
def Coord.add (a b : Coord) : Coord := ⟨a.row + b.row, a.col + b.col⟩

instance : Add Coord := ⟨Coord.add⟩

/-- `Color` from `src/piece.rs`. -/
inductive Color where
  | White
  | Black
deriving DecidableEq, Repr

/-- `Color::opposite`. -/
def Color.opposite : Color → Color
  | .White => .Black
  | .Black => .White

/-- `PieceType` from `src/piece.rs`. -/
inductive PieceType where
  | King
  | Queen
  | Rook
  | Bishop
  | Knight
  | Pawn
deriving DecidableEq, Repr

/-- `Direction` from `src/moves/mod.rs`. -/
inductive Direction where
  | North
  | South
  | East
  | West
  | NorthWest
  | NorthEast
  | SouthWest
  | SouthEast
deriving DecidableEq, Repr

/-- `Direction::get_step` from `src/moves/mod.rs` (North is the +row step in
this draft of the source). -/
def Direction.get_step : Direction → Coord
  | .North => ⟨1, 0⟩
  | .South => ⟨-1, 0⟩
  | .East => ⟨0, 1⟩
  | .West => ⟨0, -1⟩
  | .NorthWest => ⟨1, -1⟩
  | .NorthEast => ⟨1, 1⟩
  | .SouthWest => ⟨-1, -1⟩
  | .SouthEast => ⟨-1, 1⟩

/-- `DirectionError` from `src/moves/mod.rs`. -/
inductive DirectionError where
  | SameOriginDestiny
  | InvalidDirection
deriving DecidableEq, Repr

/-- `parse_direction` from `src/moves/mod.rs`: classifies the delta between
two coordinates into one of the eight compass directions, or fails. -/
def parse_direction (from_ to_ : Coord) : Except DirectionError Direction :=
  let row_diff := to_.row - from_.row
  let col_diff := to_.col - from_.col
  if row_diff = 0 ∧ col_diff = 0 then .error .SameOriginDestiny
  else if row_diff = 0 then
    (if col_diff > 0 then .ok .East else .ok .West)
  else if col_diff = 0 then
    (if row_diff > 0 then .ok .North else .ok .South)
  else if row_diff = col_diff then
    (if row_diff > 0 then .ok .NorthEast else .ok .SouthWest)
  else if row_diff = -col_diff then
    (if row_diff > 0 then .ok .NorthWest else .ok .SouthEast)
  else .error .InvalidDirection

/-- The closed set of movement-rule objects (`dyn Move` in the source).
`line`/`diag` carry `Line::max_range` / `Diagonal::max_range`
(`Option<u32>`); `jump` carries `Jump::{first, second}`; `castle` carries
the (unused) inner `Line` range of `Castle::new`. -/
inductive MoveRule where
  | line (max_range : Option Nat)
  | diag (max_range : Option Nat)
  | jump (first second : Nat)
  | pawnMove
  | castle (max_range : Nat)
deriving DecidableEq, Repr

/-- `Piece` from `src/piece.rs`.  The `has_moved` flag does not appear in
`src/piece.rs` itself, but it is a field of the piece in this repository:
`Move::move_piece` in `src/moves/mod.rs` sets `from_piece.has_moved = true`
and the tests in `src/moves/line.rs` read it. -/
structure Piece where
  color : Color
  piece : PieceType
  coord : Coord
  moves : List MoveRule
  has_moved : Bool
deriving DecidableEq, Repr

/-- `CastlingRights` from `src/board/board_info.rs`: pairs the king's
landing square with the rook's cell.  (`board_info.rs` names the second
field `tower`; `src/moves/castle.rs` accesses it as `right.rook`, the name
used here.) -/
structure CastlingRights where
  new_king : Coord
  rook : Coord
deriving DecidableEq, Repr

/-- `BoardInfo` from `src/board/board_info.rs`.  The castling
`HashMap<Color, Vec<CastlingRights>>` is embedded as an association list. -/
structure BoardInfo where
  turn : Color
  castling : List (Color × List CastlingRights)
  en_passant : Option Coord
  halfmove_clock : Int
  fullmove_number : Int
deriving DecidableEq, Repr

/-- `HashMap::get` on the castling table. -/
def BoardInfo.castlingGet (info : BoardInfo) (c : Color) :
    Option (List CastlingRights) :=
  (info.castling.lookup c)

/-- `BoardInfo::default`. -/
def BoardInfo.default : BoardInfo :=
  { turn := .White, castling := [], en_passant := none,
    halfmove_clock := 0, fullmove_number := 1 }

/-- `OutOfBoundsError` from `src/errors.rs`. -/
structure OutOfBoundsError where
deriving DecidableEq, Repr

/-- `Board` from `src/board/board.rs`: a `rows × cols` matrix of optional
pieces plus the game-state record. -/
structure Board where
  board : List (List (Option Piece))
  info : BoardInfo
  n_rows : Nat
  n_cols : Nat
deriving DecidableEq, Repr

namespace Board

/-- Read of matrix cell `board[r][c]` (callers establish bounds; Rust
panics out of range). -/
def mget (m : List (List (Option Piece))) (r c : Nat) : Option Piece :=
  (m.getD r []).getD c none

/-- Write of matrix cell `board[r][c] = v` (callers establish bounds; Rust
panics out of range). -/
def mset (m : List (List (Option Piece))) (r c : Nat) (v : Option Piece) :
    List (List (Option Piece)) :=
  m.set r ((m.getD r []).set c v)

/-- `Board::new` from `src/board/board.rs`: an empty `n_rows × n_cols`
matrix (defaults 8×8) with the default game state. -/
def new (n_rows n_cols : Option Nat) : Board :=
  let r := n_rows.getD 8
  let c := n_cols.getD 8
  { board := List.replicate r (List.replicate c none),
    info := BoardInfo.default, n_rows := r, n_cols := c }

/-- `Board::in_bounds`. -/
def in_bounds (b : Board) (coords : Coord) : Bool :=
  coords.row ≥ 0 ∧ coords.row < (b.n_rows : Int) ∧
    coords.col ≥ 0 ∧ coords.col < (b.n_cols : Int)

/-- The matrix really is `n_rows` lists of `n_cols` cells (true of every
board built through `Board::new` / `from_fen`; Rust maintains it by
construction). -/
def WF (b : Board) : Prop :=
  b.board.length = b.n_rows ∧ ∀ row ∈ b.board, row.length = b.n_cols

/-- Boolean form of `Board.WF`, for evaluation on concrete boards. -/
def wfB (b : Board) : Bool :=
  b.board.length = b.n_rows && b.board.all (fun row => row.length = b.n_cols)

theorem WF_iff_wfB (b : Board) : b.WF ↔ b.wfB = true := by
  unfold WF wfB
  simp [List.all_eq_true, decide_eq_true_iff]

/-- `Board::get_piece`: bounds-checked read, `Err(OutOfBoundsError)` out of
bounds.  (The Rust function returns a reference; pieces are plain values
here.) -/
def get_piece (b : Board) (coords : Coord) :
    Except OutOfBoundsError (Option Piece) :=
  if b.in_bounds coords then
    .ok (mget b.board coords.row.toNat coords.col.toNat)
  else
    .error ⟨⟩

/-- `Board::set_piece`: stores the piece at its own stored coordinate with
an unchecked index — out-of-bounds coordinates abort (Rust index panic,
since `i32 as usize` wraps negatives into huge values), modelled as `none`. -/
def set_piece (b : Board) (piece : Piece) : Option Board :=
  if 0 ≤ piece.coord.row ∧ piece.coord.row.toNat < b.board.length ∧
      0 ≤ piece.coord.col ∧
      piece.coord.col.toNat < (b.board.getD piece.coord.row.toNat []).length
  then
    some { b with
      board := mset b.board piece.coord.row.toNat piece.coord.col.toNat
        (some piece) }
  else none

/-- `Board::remove_piece`: clears a cell with an unchecked index —
out-of-bounds coordinates abort (Rust index panic), modelled as `none`. -/
def remove_piece (b : Board) (coord : Coord) : Option Board :=
  if 0 ≤ coord.row ∧ coord.row.toNat < b.board.length ∧
      0 ≤ coord.col ∧
      coord.col.toNat < (b.board.getD coord.row.toNat []).length
  then
    some { b with
      board := mset b.board coord.row.toNat coord.col.toNat none }
  else none

/-- `Board::move_to_coord`: takes the piece at `from` (if any), updates its
stored coordinate to `to_`, drops it on `to_`, and returns the previous
occupant of `to_`.  The Rust body indexes the matrix directly (panicking out
of bounds); the model is used under in-bounds hypotheses. -/
def move_to_coord (b : Board) (from_ to_ : Coord) : Option Piece × Board :=
  let piece := mget b.board from_.row.toNat from_.col.toNat
  let m1 := mset b.board from_.row.toNat from_.col.toNat none
  let piece' := piece.map (fun p => { p with coord := to_ })
  let old_piece := mget m1 to_.row.toNat to_.col.toNat
  let m2 := mset m1 to_.row.toNat to_.col.toNat piece'
  (old_piece, { b with board := m2 })

/-- `Board::temporal_move`: applies `move_to_coord from_ to_`, runs the
callback on the intermediate board, moves the piece back, restores any
captured piece, and returns the callback's result (paired here with the
final board, which Rust leaves behind in the `&mut self`). -/
def temporal_move {T : Type} (b : Board) (from_ to_ : Coord)
    (on_board_change : Board → T × Board) : T × Board :=
  let r1 := b.move_to_coord from_ to_
  let to_piece := r1.1
  let r2 := on_board_change r1.2
  let res := r2.1
  let b3 := (r2.2.move_to_coord to_ from_).2
  let b4 :=
    if to_piece.isSome then
      { b3 with board := mset b3.board to_.row.toNat to_.col.toNat to_piece }
    else b3
  (res, b4)

/-- `Board::max_cells_direction`. -/
def max_cells_direction (b : Board) (direction : Direction) : Nat :=
  match direction with
  | .North | .South => b.n_rows
  | .East | .West => b.n_cols
  | _ => max b.n_rows b.n_cols

/-- `Board::is_promotion_row`. -/
def is_promotion_row (b : Board) (row : Int) (color : Color) : Bool :=
  match color with
  | .White => row = 0
  | .Black => row = (b.n_rows : Int) - 1

/-- `Board::is_pawn_row`. -/
def is_pawn_row (b : Board) (row : Int) (color : Color) : Bool :=
  match color with
  | .White => row = (b.n_rows : Int) - 2
  | .Black => row = 1

/-- `Board::get_all_pieces`: all pieces of one color in row-major scan
order. -/
def get_all_pieces (b : Board) (color : Color) : List Piece :=
  (b.board.map (fun row =>
    (row.filterMap id).filter (fun p => p.color = color))).flatten

/-- `Board::get_king`: the first king of the color in row-major scan order.
Rust fast-fails (`unreachable!`) when no king exists; the model returns
`none` there and the check evaluator's kingless branch is documented at its
definition. -/
def getKing (b : Board) (color : Color) : Option Piece :=
  b.board.flatten.findSome? (fun cell =>
    match cell with
    | some p => if p.color = color ∧ p.piece = .King then some p else none
    | none => none)

end Board

end Chess

namespace Chess

/-! ## Movement rules without recursion: sliding, jump, pawn -/

/-- The traversal loop shared by `util::can_traverse` and (inlined, with
identical behaviour) `Line::is_move_valid`: from `cur`, step by `step` at
most `range` times; out of bounds fails; reaching `to_` succeeds iff the
target cell is empty or holds an opposite-color piece; any other occupied
cell blocks; exhausting the range fails.  (The source re-queries the target
cell with a second `get_piece`; it returns the same cell, folded here into
one query — the second query's out-of-bounds arm is unreachable.) -/
def canTraverseGo (b : Board) (from_color : Color) (to_ step : Coord) :
    Nat → Coord → Bool
  | 0, _ => false
  | range + 1, cur =>
    let next := cur + step
    match b.get_piece next with
    | .error _ => false
    | .ok cell =>
      if next = to_ then
        match cell with
        | some piece => decide (piece.color ≠ from_color)
        | none => true
      else if cell.isSome then false
      else canTraverseGo b from_color to_ step range next

/-- `can_traverse` from `src/moves/util.rs`: the walk starts from the
piece's stored coordinate. -/
def can_traverse (b : Board) (from_piece : Piece) (to_ step : Coord)
    (max_range : Nat) : Bool :=
  canTraverseGo b from_piece.color to_ step max_range from_piece.coord

/-- `Line::is_move_valid` from `src/moves/line.rs`: orthogonal directions
only; the walk starts from the `from` argument and runs the same loop as
`util::can_traverse`. -/
def lineIsMoveValid (max_range : Option Nat) (from_ to_ : Coord)
    (b : Board) : Bool :=
  match b.get_piece from_ with
  | .ok (some from_piece) =>
    match parse_direction from_ to_ with
    | .error _ => false
    | .ok direction =>
      match direction with
      | .North | .South | .East | .West =>
        canTraverseGo b from_piece.color to_ direction.get_step
          (max_range.getD (b.max_cells_direction direction)) from_
      | _ => false
  | _ => false

/-- `Diagonal::is_move_valid` from `src/moves/diag.rs`: diagonal directions
only, delegating to `util::can_traverse`. -/
def diagIsMoveValid (max_range : Option Nat) (from_ to_ : Coord)
    (b : Board) : Bool :=
  match b.get_piece from_ with
  | .ok (some from_piece) =>
    match parse_direction from_ to_ with
    | .ok direction =>
      match direction with
      | .NorthEast | .NorthWest | .SouthEast | .SouthWest =>
        can_traverse b from_piece to_ direction.get_step
          (max_range.getD (b.max_cells_direction direction))
      | _ => false
    | .error _ => false
  | _ => false

/-- `Jump::is_jump_in_range` from `src/moves/jump.rs`. -/
def is_jump_in_range (first second : Nat) (from_ to_ : Coord) : Bool :=
  let n_rows := (to_.row - from_.row).natAbs
  let n_cols := (to_.col - from_.col).natAbs
  (n_rows = first ∧ n_cols = second) ∨ (n_rows = second ∧ n_cols = first)

/-- `Jump::is_move_valid` from `src/moves/jump.rs`: fixed offset pair, no
path blocking, destination empty or enemy-held. -/
def jumpIsMoveValid (first second : Nat) (from_ to_ : Coord) (b : Board) :
    Bool :=
  match b.get_piece from_ with
  | .ok (some from_piece) =>
    if !is_jump_in_range first second from_ to_ then false
    else
      match b.get_piece to_ with
      | .ok (some to_piece) => decide (from_piece.color ≠ to_piece.color)
      | .ok none => true
      | .error _ => false
  | _ => false

/-- `PawnMove::check_one_forward_step` from `src/moves/pawn.rs`: same
column and empty destination.  The out-of-bounds arm is `unreachable!()` in
the source (an abort); it is modelled as `false` and no theorem below
depends on that arm. -/
def check_one_forward_step (from_ to_ : Coord) (b : Board) : Bool :=
  if to_.col ≠ from_.col then false
  else
    match b.get_piece to_ with
    | .ok (some _) => false
    | .ok none => true
    | .error _ => false

/-- `PawnMove::check_two_forward_steps` from `src/moves/pawn.rs`.  Note the
loop body recomputes `next_coord` from `from_piece.coord` on both
iterations — the second iteration re-checks the first square instead of the
destination; the embedding reproduces this faithfully. -/
def check_two_forward_steps (from_piece : Piece) (step : Coord)
    (b : Board) : Bool :=
  if !b.is_pawn_row from_piece.coord.row from_piece.color then false
  else
    (List.range 2).all (fun _ =>
      check_one_forward_step from_piece.coord (from_piece.coord + step) b)

/-- `PawnMove::check_en_passant`. -/
def check_en_passant (to_ : Coord) (b : Board) : Bool :=
  match b.info.en_passant with
  | some coord => decide (coord = to_)
  | none => false

/-- `PawnMove::check_capture`: destination holds an enemy piece, or is the
en-passant target when empty. -/
def check_capture (from_piece : Piece) (to_ : Coord) (b : Board) : Bool :=
  match b.get_piece to_ with
  | .ok (some to_piece) => decide (to_piece.color ≠ from_piece.color)
  | .ok none => check_en_passant to_ b
  | .error _ => false

/-- `PawnMove::is_move_valid` from `src/moves/pawn.rs`: color-filtered
direction, then capture / one-step / two-step dispatch on the absolute
deltas. -/
def pawnIsMoveValid (from_ to_ : Coord) (b : Board) : Bool :=
  match b.get_piece from_ with
  | .ok (some from_piece) =>
    match parse_direction from_ to_ with
    | .error _ => false
    | .ok direction =>
      let dir_ok :=
        match from_piece.color, direction with
        | .Black, .South | .Black, .SouthEast | .Black, .SouthWest => true
        | .White, .North | .White, .NorthEast | .White, .NorthWest => true
        | _, _ => false
      if !dir_ok then false
      else
        let row_dis := (from_.row - to_.row).natAbs
        let col_dis := (from_.col - to_.col).natAbs
        if col_dis = 1 ∧ row_dis = 1 then check_capture from_piece to_ b
        else if col_dis ≠ 0 then false
        else if row_dis = 1 then check_one_forward_step from_ to_ b
        else if row_dis = 2 then
          check_two_forward_steps from_piece direction.get_step b
        else false
  | _ => false

/-! ## `allowed_moves` for the non-recursive rules -/

/-- The per-direction walk of `Line::allowed_moves` /
`Diagonal::allowed_moves` (and `util::legal_coords_along_direction`):
collect empty cells, stop at the first piece, keeping it when it is
capturable; stop at the board edge. -/
def slideAllowedGo (b : Board) (color : Color) (step : Coord) :
    Nat → Coord → List Coord
  | 0, _ => []
  | range + 1, cur =>
    let next := cur + step
    match b.get_piece next with
    | .error _ => []
    | .ok none => next :: slideAllowedGo b color step range next
    | .ok (some piece) => if piece.color ≠ color then [next] else []

/-- `Line::allowed_moves` from `src/moves/line.rs`. -/
def lineAllowedMoves (max_range : Option Nat) (from_ : Coord) (b : Board) :
    List Coord :=
  match b.get_piece from_ with
  | .ok (some current_piece) =>
    [Direction.North, Direction.South, Direction.East,
      Direction.West].flatMap (fun direction =>
      slideAllowedGo b current_piece.color direction.get_step
        (max_range.getD (b.max_cells_direction direction)) from_)
  | _ => []

/-- `Diagonal::allowed_moves` from `src/moves/diag.rs`. -/
def diagAllowedMoves (max_range : Option Nat) (from_ : Coord) (b : Board) :
    List Coord :=
  match b.get_piece from_ with
  | .ok (some from_piece) =>
    [Direction.NorthEast, Direction.NorthWest, Direction.SouthEast,
      Direction.SouthWest].flatMap (fun direction =>
      slideAllowedGo b from_piece.color direction.get_step
        (max_range.getD (b.max_cells_direction direction)) from_)
  | _ => []

/-- `Jump::allowed_moves` from `src/moves/jump.rs`: the eight (first,
second) offsets, keeping in-bounds cells that are empty or enemy-held.
(The source collects into a `HashSet`; the set of coordinates produced is
the same.) -/
def jumpAllowedMoves (first second : Nat) (from_ : Coord) (b : Board) :
    List Coord :=
  match b.get_piece from_ with
  | .ok (some from_piece) =>
    ([((-1 : Int), (0 : Int)), (0, -1), (0, 1), (1, 0)]).flatMap
      (fun mask =>
        let masks_2 : List (Int × Int) :=
          if mask.1 = 0 then [(1, 0), (-1, 0)] else [(0, 1), (0, -1)]
        masks_2.flatMap (fun mask_2 =>
          let to_ : Coord :=
            ⟨from_.row + mask.1 * (first : Int) + mask_2.1 * (second : Int),
              from_.col + mask.2 * (first : Int) + mask_2.2 * (second : Int)⟩
          match b.get_piece to_ with
          | .ok (some piece) =>
            if piece.color ≠ from_piece.color then [to_] else []
          | .ok none => [to_]
          | .error _ => []))
  | _ => []

/-- `PawnMove::allowed_moves` from `src/moves/pawn.rs`: forward one/two
steps, the two diagonal captures, and the en-passant cell when it is the
adjacent diagonal cell. -/
def pawnAllowedMoves (from_ : Coord) (b : Board) : List Coord :=
  match b.get_piece from_ with
  | .ok (some from_piece) =>
    let legal_directions :=
      match from_piece.color with
      | .Black => [Direction.South, Direction.SouthEast, Direction.SouthWest]
      | .White => [Direction.North, Direction.NorthEast, Direction.NorthWest]
    legal_directions.flatMap (fun direction =>
      let step := direction.get_step
      let next_coord := from_piece.coord + step
      if !b.in_bounds next_coord then []
      else
        let core :=
          match direction with
          | .North | .South =>
            (if check_one_forward_step from_ next_coord b then [next_coord]
              else []) ++
            (if check_two_forward_steps from_piece step b then
              [next_coord + step] else [])
          | _ =>
            if check_capture from_piece next_coord b then [next_coord]
            else []
        let passant :=
          match b.info.en_passant with
          | some coord => if coord = next_coord then [next_coord] else []
          | none => []
        core ++ passant)
  | _ => []

end Chess

namespace Chess

/-! ## The recursive engine: castling safety and the check/mate evaluator

`Castle::can_safely_traverse` invokes the check evaluator, and the check
evaluator invokes piece legality, which includes the castle rule — a
recursive knot closed off with a `fuel` parameter (see the file header).

`src/moves/castle.rs` calls a three-argument `is_check(coord, board,
is_mate_probe)`; that function is not present under `src/` (the only
`is_check` there, in `src/check.rs`, is a four-argument draft taking
explicit piece lists).  The three-argument evaluator is therefore modelled
from the spec below (`isCheckProbe`); the four-argument `src/check.rs`
functions are embedded separately (`isCheck`, `isMate`). -/

/-- The iteration bound for `Castle::is_line_clear`'s unbounded `loop`.
The walk moves one row or column per step monotonically, so starting from
an in-bounds cell it leaves the board within this many steps; the fuel-0
default `true` agrees with the out-of-bounds outcome the source loop would
then reach, and is unreachable for the in-bounds kings the callers
guarantee. -/
def lineClearFuel (b : Board) : Nat := b.n_rows + b.n_cols + 2

/-- The `loop` of `Castle::is_line_clear`: walk from the king toward the
rook; reaching the rook's cell is clear, any piece before it blocks, and
walking off the board returns `true` (the source's `Err(_) => return true`
arm). -/
def lineClearGo (b : Board) (rook step : Coord) : Nat → Coord → Bool
  | 0, _ => true
  | n + 1, inter_cell =>
    if inter_cell = rook then true
    else
      match b.get_piece inter_cell with
      | .ok (some _) => false
      | .ok none => lineClearGo b rook step n (inter_cell + step)
      | .error _ => true

/-- `Castle::is_line_clear` from `src/moves/castle.rs`. -/
def castleIsLineClear (king rook : Coord) (b : Board) : Bool :=
  match parse_direction king rook with
  | .error _ => false
  | .ok direction =>
    lineClearGo b rook direction.get_step (lineClearFuel b)
      (king + direction.get_step)

/-- `MAX_RANGE` from `src/moves/castle.rs` (the king moves two cells in a
FIDE castle). -/
def castleMaxRange : Nat := 2

mutual

/-- `Move::is_move_valid` dispatched over the closed rule set (the
`dyn Move` virtual call).  The non-recursive rules ignore the fuel. -/
def ruleIsMoveValid : Nat → MoveRule → Coord → Coord → Board → Bool
  | _, .line mr, from_, to_, b => lineIsMoveValid mr from_ to_ b
  | _, .diag mr, from_, to_, b => diagIsMoveValid mr from_ to_ b
  | _, .jump f s, from_, to_, b => jumpIsMoveValid f s from_ to_ b
  | _, .pawnMove, from_, to_, b => pawnIsMoveValid from_ to_ b
  | 0, .castle _, _, _, _ => false
  | fuel + 1, .castle _, from_, to_, b => castleIsMoveValid fuel from_ to_ b

/-- `Move::allowed_moves` dispatched over the closed rule set. -/
def ruleAllowedMoves : Nat → MoveRule → Coord → Board → List Coord
  | _, .line mr, from_, b => lineAllowedMoves mr from_ b
  | _, .diag mr, from_, b => diagAllowedMoves mr from_ b
  | _, .jump f s, from_, b => jumpAllowedMoves f s from_ b
  | _, .pawnMove, from_, b => pawnAllowedMoves from_ b
  | 0, .castle _, _, _ => []
  | fuel + 1, .castle _, from_, b => castleAllowedMoves fuel from_ b

/-- `Piece::can_move` from `src/piece.rs`: some movement rule of the piece
validates the move from the piece's stored coordinate. -/
def canMove : Nat → Piece → Coord → Board → Bool
  | 0, _, _, _ => false
  | fuel + 1, p, coord, b =>
    p.moves.any (fun m => ruleIsMoveValid fuel m p.coord coord b)

/-- `Piece::get_moves` from `src/piece.rs`: the union of the rules'
`allowed_moves` (a `HashSet` in the source; the list model keeps scan
order, and all uses below are membership-level). -/
def getMoves : Nat → Piece → Board → List Coord
  | 0, _, _ => []
  | fuel + 1, p, b =>
    p.moves.flatMap (fun m => ruleAllowedMoves fuel m p.coord b)

/-- `Castle::is_move_valid` from `src/moves/castle.rs`: the destination
must be the `new_king` of a recorded right for the mover's color (the loop
decides on the first matching right), then the path safety test runs on a
clone of the board. -/
def castleIsMoveValid : Nat → Coord → Coord → Board → Bool
  | 0, _, _, _ => false
  | fuel + 1, from_, to_, b =>
    match b.get_piece from_ with
    | .ok (some from_piece) =>
      match b.info.castlingGet from_piece.color with
      | none => false
      | some rights =>
        match rights.find? (fun right => right.new_king = to_) with
        | some right => castleCanSafelyTraverse fuel from_ to_ right.rook b
        | none => false
    | _ => false

/-- `Castle::can_safely_traverse` from `src/moves/castle.rs`.  Note the
source parses the direction as `parse_direction(new_king, king)` — from
the destination back to the king — and then walks `MAX_RANGE + 1` cells
from the king's cell by that step, probing each with a temporal king move
and the check evaluator.  The `0..MAX_RANGE+1` loop is unrolled
(`MAX_RANGE` is the constant 2). -/
def castleCanSafelyTraverse : Nat → Coord → Coord → Coord → Board → Bool
  | 0, _, _, _, _ => false
  | fuel + 1, king, new_king, rook, b =>
    match parse_direction new_king king with
    | .error _ => false
    | .ok direction =>
      if !castleIsLineClear king rook b then false
      else
        match b.get_piece king with
        | .ok (some _) =>
          let step := direction.get_step
          let probe := fun (inter_cell : Coord) =>
            (b.temporal_move king inter_cell (fun board =>
              (isCheckProbe fuel inter_cell board false, board))).1
          let c0 := king
          let c1 := c0 + step
          let c2 := c1 + step
          if probe c0 then false
          else if probe c1 then false
          else if probe c2 then false
          else true
        | _ => false

/-- `Castle::allowed_moves` from `src/moves/castle.rs`: every recorded
right whose traversal is safe. -/
def castleAllowedMoves : Nat → Coord → Board → List Coord
  | 0, _, _ => []
  | fuel + 1, from_, b =>
    match b.get_piece from_ with
    | .ok (some from_piece) =>
      match b.info.castlingGet from_piece.color with
      | none => []
      | some rights =>
        (rights.filter (fun right =>
          castleCanSafelyTraverse fuel from_ right.new_king right.rook
            b)).map (fun right => right.new_king)
    | _ => []

/-- Modelled from the spec: the three-argument check evaluator
`is_check(coord, board, is_mate_probe)` called by
`Castle::can_safely_traverse` is code of this repository that is not under
`src/` (only its caller is; `src/check.rs` holds a four-argument draft).
Per the spec: it reads the piece at `coord` (no piece — `false`), locates
the opposing king, and for every piece of that king's side that can
legally move to `coord` verifies — via `temporal_move` relocating that
piece and a closure scanning the opposite color's pieces for an attack on
that king's square — that the move would not expose the attacker's own
king; `is_mate_probe = true` bypasses this self-exposure filter.  A board
with no such king is an invariant violation (`get_king` fast-fails in
Rust); the model returns `false` there. -/
def isCheckProbe : Nat → Coord → Board → Bool → Bool
  | 0, _, _, _ => false
  | fuel + 1, coord, b, is_mate_probe =>
    match b.get_piece coord with
    | .ok (some defender) =>
      let attackers := b.get_all_pieces defender.color.opposite
      let defender_side := b.get_all_pieces defender.color
      match b.getKing defender.color.opposite with
      | none => false
      | some attacker_king =>
        attackers.any (fun p =>
          canMove fuel p coord b &&
          (is_mate_probe ||
            !(b.temporal_move p.coord attacker_king.coord (fun board =>
              (defender_side.any (fun e =>
                canMove fuel e attacker_king.coord board), board))).1))
    | _ => false

/-- `is_check` from `src/check.rs` (the four-argument draft): `coord` is
the probed cell, `ally_pieces` the potential attackers of that cell (the
color opposite to the piece standing on it), `enemy_pieces` the pieces of
the probed piece's color.  An ally counts as attacker only if, after
temporally relocating it onto its own king's cell, no enemy piece can move
to that king's cell (the self-exposure filter).  No piece at `coord` gives
`false`; a missing king is an invariant violation (`get_king` fast-fails
in Rust), modelled as `false`. -/
def isCheck : Nat → Coord → Board → List Piece → List Piece → Bool
  | 0, _, _, _, _ => false
  | fuel + 1, coord, b, enemy_pieces, ally_pieces =>
    match b.get_piece coord with
    | .ok (some piece) =>
      match b.getKing piece.color.opposite with
      | none => false
      | some ally_king =>
        let ally_king_coord := ally_king.coord
        ally_pieces.any (fun p =>
          canMove fuel p coord b &&
          !(b.temporal_move p.coord ally_king_coord (fun board =>
            (enemy_pieces.any (fun e =>
              canMove fuel e ally_king_coord board), board))).1)
    | _ => false

/-- `is_mate` from `src/check.rs`: no piece at `coord` gives `false`;
otherwise every move of the king at `coord` is simulated via
`temporal_move` (early `false` on a safe escape), and then every move of
every other piece of the king's side is simulated (early `false` when one
clears the check); `true` when nothing helps. -/
def isMate : Nat → Coord → Board → List Piece → List Piece → Bool
  | 0, _, _, _, _ => false
  | fuel + 1, coord, b, enemy_pieces, ally_pieces =>
    match b.get_piece coord with
    | .ok (some enemy_king) =>
      let enemy_king_moves := getMoves fuel enemy_king b
      if enemy_king_moves.any (fun to_coord =>
          (b.temporal_move enemy_king.coord to_coord (fun new_board =>
            (!isCheck fuel to_coord new_board enemy_pieces ally_pieces,
              new_board))).1) then
        false
      else if enemy_pieces.any (fun p =>
          p.coord ≠ coord &&
          p.moves.any (fun legal_move =>
            (ruleAllowedMoves fuel legal_move p.coord b).any (fun to_coord =>
              !(b.temporal_move p.coord to_coord (fun new_board =>
                (isCheck fuel coord new_board enemy_pieces ally_pieces,
                  new_board))).1))) then
        false
      else true
    | _ => false

end

/-- `Board::can_move` from `src/board/board.rs` (`#[pymethods]` block):
some rule of the piece at `from` validates the move. -/
def boardCanMove (fuel : Nat) (b : Board) (from_ to_ : Coord) : Bool :=
  match b.get_piece from_ with
  | .ok (some piece) =>
    piece.moves.any (fun m => ruleIsMoveValid fuel m from_ to_ b)
  | _ => false

/-- The default `Move::move_piece` from `src/moves/mod.rs`: clone the piece
at `from` (no piece / out of bounds — return with the board unchanged),
restamp its coordinate and `has_moved`, `set_piece` it, then `remove_piece`
the origin.  `set_piece`/`remove_piece` abort out of bounds (`none`). -/
def moveDefaultMovePiece (b : Board) (from_ to_ : Coord) : Option Board :=
  match b.get_piece from_ with
  | .ok (some piece) =>
    let from_piece := { piece with coord := to_, has_moved := true }
    (b.set_piece from_piece).bind (fun b2 => b2.remove_piece from_)
  | _ => some b

end Chess

namespace Chess
namespace Board

/-! ## Matrix cell lemmas -/

theorem getD_set_self {α : Type} (l : List α) (i : Nat) (d a : α)
    (h : i < l.length) : (l.set i a).getD i d = a := by
  simp [List.getD_eq_getElem?_getD, List.getElem?_set_self',
    List.getElem?_eq_getElem h]

theorem getD_set_ne {α : Type} (l : List α) (i j : Nat) (d a : α)
    (h : i ≠ j) : (l.set i a).getD j d = l.getD j d := by
  simp [List.getD_eq_getElem?_getD, List.getElem?_set_ne h]

theorem set_getD_self {α : Type} (l : List α) (i : Nat) (d : α)
    (h : i < l.length) : l.set i (l.getD i d) = l := by
  apply List.ext_getElem?
  intro j
  by_cases hij : i = j
  · subst hij
    simp [List.getElem?_set_self', List.getD_eq_getElem?_getD,
      List.getElem?_eq_getElem h]
  · simp [List.getElem?_set_ne hij]

theorem mget_mset_self (m : List (List (Option Piece))) (r c : Nat)
    (v : Option Piece) (hr : r < m.length)
    (hc : c < (m.getD r []).length) :
    mget (mset m r c v) r c = v := by
  unfold mget mset
  rw [getD_set_self _ _ _ _ hr, getD_set_self _ _ _ _ hc]

theorem mget_mset_ne (m : List (List (Option Piece))) (r c r' c' : Nat)
    (v : Option Piece) (h : r ≠ r' ∨ c ≠ c') :
    mget (mset m r c v) r' c' = mget m r' c' := by
  unfold mget mset
  rcases h with h | h
  · rw [getD_set_ne _ _ _ _ _ h]
  · by_cases hr : r = r'
    · subst hr
      by_cases hlen : r < m.length
      · rw [getD_set_self _ _ _ _ hlen, getD_set_ne _ _ _ _ _ h]
      · rw [List.set_eq_of_length_le (by omega)]
    · rw [getD_set_ne _ _ _ _ _ hr]

theorem mset_mset_self (m : List (List (Option Piece))) (r c : Nat)
    (v w : Option Piece) :
    mset (mset m r c v) r c w = mset m r c w := by
  unfold mset
  by_cases hlen : r < m.length
  · rw [getD_set_self _ _ _ _ hlen, List.set_set, List.set_set]
  · have h1 : m.set r ((m.getD r []).set c v) = m :=
      List.set_eq_of_length_le (by omega)
    rw [h1]

theorem mset_mset_comm (m : List (List (Option Piece))) (r c r' c' : Nat)
    (v w : Option Piece) (h : r ≠ r' ∨ c ≠ c') :
    mset (mset m r c v) r' c' w = mset (mset m r' c' w) r c v := by
  unfold mset
  by_cases hr : r = r'
  · subst hr
    rcases h with h | h
    · exact absurd rfl h
    · by_cases hlen : r < m.length
      · rw [getD_set_self _ _ _ _ hlen, getD_set_self _ _ _ _ hlen,
          List.set_set, List.set_set, List.set_comm _ _ _ h]
      · have h1 : m.set r ((m.getD r []).set c v) = m :=
          List.set_eq_of_length_le (by omega)
        have h2 : m.set r ((m.getD r []).set c' w) = m :=
          List.set_eq_of_length_le (by omega)
        rw [h1, h2, h1]
  · rw [getD_set_ne _ _ _ _ _ hr, getD_set_ne _ _ _ _ _ (Ne.symm hr),
      List.set_comm _ _ _ hr]

theorem mset_mget_self (m : List (List (Option Piece))) (r c : Nat)
    (hr : r < m.length) (hc : c < (m.getD r []).length) :
    mset m r c (mget m r c) = m := by
  unfold mget mset
  rw [set_getD_self _ _ _ hc, set_getD_self _ _ _ hr]

theorem length_mset (m : List (List (Option Piece))) (r c : Nat)
    (v : Option Piece) : (mset m r c v).length = m.length := by
  unfold mset
  simp

end Board
end Chess

namespace Chess

/-! ## Piece constructors (`src/piece.rs`) and FEN piece parsing
(`src/notation/fen.rs`) -/

/-- `Piece::new`.  The source struct literal does not set `has_moved`; the
flag starts out `false` (the tests in `src/moves/line.rs` assert
`!rook.has_moved` on a fresh piece). -/
def Piece.new (color : Color) (piece : PieceType) (moves : List MoveRule)
    (coord : Coord) : Piece :=
  { color, piece, coord, moves, has_moved := false }

/-- `Piece::new_rook`. -/
def Piece.new_rook (color : Color) (coord : Coord) : Piece :=
  Piece.new color .Rook [.line none] coord

/-- `Piece::new_bishop`. -/
def Piece.new_bishop (color : Color) (coord : Coord) : Piece :=
  Piece.new color .Bishop [.diag none] coord

/-- `Piece::new_queen`. -/
def Piece.new_queen (color : Color) (coord : Coord) : Piece :=
  Piece.new color .Queen [.line none, .diag none] coord

/-- `Piece::new_king`: one-step line and diagonal plus the castle rule
(`Castle::new(Some(2))`). -/
def Piece.new_king (color : Color) (coord : Coord) : Piece :=
  Piece.new color .King [.line (some 1), .diag (some 1), .castle 2] coord

/-- `Piece::new_pawn`. -/
def Piece.new_pawn (color : Color) (coord : Coord) : Piece :=
  Piece.new color .Pawn [.pawnMove] coord

/-- `Piece::new_knight` (`Jump::new()` resolves to the default (2, 1)
offset pair of `src/moves/jump.rs`). -/
def Piece.new_knight (color : Color) (coord : Coord) : Piece :=
  Piece.new color .Knight [.jump 2 1] coord

/-- `FenError` from `src/notation/fen.rs`. -/
inductive FenError where
  | InvalidFen (msg : String)
  | InvalidPiece (msg : String)
  | InvalidGameInfo (msg : String)
deriving DecidableEq, Repr

/-- The piece-kind dispatch of `char_to_piece` from
`src/notation/fen.rs` (its `match` on the lowercased character).  Note the
`'q'` arm: it builds `Piece::new_pawn(color, coord)`, not a queen. -/
def char_to_piece_body (c : Char) (color : Color) (coord : Coord) :
    Except FenError Piece :=
  match c.toLower with
  | 'p' => .ok (Piece.new_pawn color coord)
  | 'n' => .ok (Piece.new_knight color coord)
  | 'b' => .ok (Piece.new_bishop color coord)
  | 'r' => .ok (Piece.new_rook color coord)
  | 'q' => .ok (Piece.new_pawn color coord)
  | 'k' => .ok (Piece.new_king color coord)
  | _ => .error (.InvalidPiece s!"Invalid piece {c}")

/-- `char_to_piece` from `src/notation/fen.rs`: non-alphabetic characters
fail, uppercase is White, and the kind dispatch builds the piece. -/
def char_to_piece (c : Char) (row col : Int) : Except FenError Piece :=
  if ¬c.isAlpha then
    .error (.InvalidPiece s!"Invalid piece {c}")
  else
    char_to_piece_body c (if c.isUpper then .White else .Black) ⟨row, col⟩

/-- `OFFICIAL_BOARD_COLS` from `src/notation/fen.rs`. -/
def OFFICIAL_BOARD_COLS : Int := 8

/-- The per-row character loop of `parse` in `src/notation/fen.rs`
(lines 171–184): digits advance the column, letters become pieces via
`char_to_piece`.  The `else` arm is `unreachable!()` in the source (the
regex rules it out); modelled as an `InvalidFen` error. -/
def parseFenRowChars (row_idx : Int) :
    List Char → Int → Except FenError (List Piece × Int)
  | [], col => .ok ([], col)
  | c :: rest, col =>
    if c.isDigit then
      parseFenRowChars row_idx rest (col + ((c.toNat - '0'.toNat : Nat) : Int))
    else if c.isAlpha then
      match char_to_piece c row_idx col with
      | .error e => .error e
      | .ok piece =>
        match parseFenRowChars row_idx rest (col + 1) with
        | .error e => .error e
        | .ok (pieces, col') => .ok (piece :: pieces, col')
    else .error (.InvalidFen "Invalid Fen that has passed the regex check")

/-- The placement part of `parse` from `src/notation/fen.rs`: each
`/`-separated row is scanned with `parseFenRowChars` and must span exactly
`OFFICIAL_BOARD_COLS` columns.  (The surrounding regex validation and the
game-info parsing only reject inputs or build `BoardInfo`; they touch no
piece.) -/
def parseFenRows : List (List Char) → Int →
    Except FenError (List Piece)
  | [], _ => .ok []
  | row :: rest, row_idx =>
    match parseFenRowChars row_idx row 0 with
    | .error e => .error e
    | .ok (pieces, col) =>
      if col ≠ OFFICIAL_BOARD_COLS then
        .error (.InvalidFen s!"Invalid Fen, row has {col} columns")
      else
        match parseFenRows rest (row_idx + 1) with
        | .error e => .error e
        | .ok pieces' => .ok (pieces ++ pieces')

/-- The board construction of `Board::from_fen` from
`src/board/board.rs`: a default-size empty board, `set_piece` for every
parsed piece, then the parsed `BoardInfo` is installed.  `set_piece`'s
out-of-bounds abort propagates as `none`. -/
def fromFenBoard (pieces : List Piece) (info : BoardInfo) : Option Board :=
  (pieces.foldlM (fun b piece => Board.set_piece b piece)
    (Board.new none none)).map (fun b => { b with info := info })

end Chess

namespace Chess
namespace Board

/-! ## Bounds bookkeeping and the temporal-move restoration -/

theorem row_length_mset (m : List (List (Option Piece))) (r c r' : Nat)
    (v : Option Piece) :
    ((mset m r c v).getD r' []).length = (m.getD r' []).length := by
  unfold mset
  by_cases hr : r = r'
  · subst hr
    by_cases hlen : r < m.length
    · rw [getD_set_self _ _ _ _ hlen, List.length_set]
    · rw [List.set_eq_of_length_le (by omega)]
  · rw [getD_set_ne _ _ _ _ _ hr]

/-- On a well-formed board, an in-bounds coordinate indexes into the
matrix. -/
theorem in_bounds_index (b : Board) (c : Coord) (hwf : b.WF)
    (h : b.in_bounds c = true) :
    c.row.toNat < b.board.length ∧
      c.col.toNat < (b.board.getD c.row.toNat []).length := by
  obtain ⟨hlen, hrows⟩ := hwf
  unfold in_bounds at h
  simp only [decide_eq_true_eq] at h
  obtain ⟨h1, h2, h3, h4⟩ := h
  have hr : c.row.toNat < b.n_rows := by omega
  constructor
  · omega
  · have hmem : b.board.getD c.row.toNat [] ∈ b.board := by
      have : c.row.toNat < b.board.length := by omega
      rw [List.getD_eq_getElem?_getD, List.getElem?_eq_getElem this]
      exact List.getElem_mem this
    rw [hrows _ hmem]
    omega

/-- `get_piece` succeeding with a piece pins down the raw cell and the
bounds. -/
theorem get_piece_ok (b : Board) (c : Coord) (v : Option Piece)
    (h : b.get_piece c = .ok v) :
    b.in_bounds c = true ∧ mget b.board c.row.toNat c.col.toNat = v := by
  unfold get_piece at h
  by_cases hb : b.in_bounds c = true
  · simp [hb] at h
    exact ⟨hb, h⟩
  · simp [hb] at h

/-- Structure surgery: restamping a piece's coordinate with its own
coordinate is the identity. -/
theorem piece_restamp (p : Piece) (c : Coord) (h : p.coord = c) :
    { p with coord := c } = p := by
  cases p
  simp_all

theorem board_eta (b : Board) : { b with board := b.board } = b := rfl

end Board

/-- C1.  `Board::temporal_move(from, to, cb)`, on a well-formed board with
in-bounds `from`/`to` and a piece standing at `from` (its stored coordinate
agreeing with `from`, the Board invariant), returns exactly the callback's
result on the intermediate board, and — whenever the callback leaves the
board it is given unchanged on exit — hands back a final board equal to the
original: the moved piece is back at `from` with its stored coordinate
`from`, and any captured piece is restored at `to`.  (A no-op callback
satisfies the hypothesis trivially; a nested `temporal_move` satisfies it by
this very theorem, so nested temporal moves compose, each popping only its
own change.) -/
theorem C1_temporal_move_restores {T : Type} (b : Board) (from_ to_ : Coord)
    (p : Piece) (cb : Board → T × Board)
    (hwf : b.WF)
    (ht : b.in_bounds to_ = true)
    (hp : b.get_piece from_ = .ok (some p))
    (hpc : p.coord = from_)
    (hcb : ∀ x, (cb x).2 = x) :
    (b.temporal_move from_ to_ cb).1 =
      (cb (b.move_to_coord from_ to_).2).1 ∧
    (b.temporal_move from_ to_ cb).2 = b := by
  obtain ⟨hf, hcell⟩ := Board.get_piece_ok b from_ (some p) hp
  obtain ⟨hfr, hfc⟩ := Board.in_bounds_index b from_ hwf hf
  obtain ⟨htr, htc⟩ := Board.in_bounds_index b to_ hwf ht
  refine ⟨by simp only [Board.temporal_move, hcb], ?_⟩
  by_cases heq : from_ = to_
  · -- moving a piece onto its own square: both passes are identities
    subst heq
    have hold : Board.mget (Board.mset b.board from_.row.toNat
        from_.col.toNat none) from_.row.toNat from_.col.toNat = none :=
      Board.mget_mset_self b.board _ _ none hfr hfc
    have hm1 : Board.mset (Board.mset b.board from_.row.toNat
        from_.col.toNat none) from_.row.toNat from_.col.toNat
        (some { p with coord := from_ }) = b.board := by
      rw [Board.mset_mset_self, Board.piece_restamp p from_ hpc, ← hcell,
        Board.mset_mget_self b.board _ _ hfr hfc]
    simp only [Board.temporal_move, Board.move_to_coord, hcell,
      Option.map_some', hcb, hold, hm1, Option.isSome_none,
      Bool.false_eq_true, if_false, Option.map_none']
  · -- distinct squares
    have hnat : from_.row.toNat ≠ to_.row.toNat ∨
        from_.col.toNat ≠ to_.col.toNat := by
      unfold Board.in_bounds at hf ht
      simp only [decide_eq_true_eq] at hf ht
      by_contra hcon
      push_neg at hcon
      obtain ⟨h1, h2⟩ := hcon
      apply heq
      have hrow : from_.row = to_.row := by omega
      have hcol : from_.col = to_.col := by omega
      cases from_
      cases to_
      simp_all
    have hold : Board.mget (Board.mset b.board from_.row.toNat
        from_.col.toNat none) to_.row.toNat to_.col.toNat =
        Board.mget b.board to_.row.toNat to_.col.toNat :=
      Board.mget_mset_ne b.board _ _ _ _ none hnat
    have hback : Board.mget (Board.mset (Board.mset b.board
        from_.row.toNat from_.col.toNat none) to_.row.toNat to_.col.toNat
        (some { p with coord := to_ })) to_.row.toNat to_.col.toNat =
        some { p with coord := to_ } :=
      Board.mget_mset_self _ _ _ _
        (by rw [Board.length_mset]; exact htr)
        (by rw [Board.row_length_mset]; exact htc)
    have hrestamp : ({ { p with coord := to_ } with coord := from_ } :
        Piece) = p := by
      cases p
      simp_all
    have hnat' : to_.row.toNat ≠ from_.row.toNat ∨
        to_.col.toNat ≠ from_.col.toNat := by
      rcases hnat with h | h
      · exact Or.inl (Ne.symm h)
      · exact Or.inr (Ne.symm h)
    have hm4 : Board.mset (Board.mset (Board.mset (Board.mset b.board
        from_.row.toNat from_.col.toNat none) to_.row.toNat to_.col.toNat
        (some { p with coord := to_ })) to_.row.toNat to_.col.toNat none)
        from_.row.toNat from_.col.toNat (some p) =
        Board.mset b.board to_.row.toNat to_.col.toNat none := by
      rw [Board.mset_mset_self, Board.mset_mset_comm _ _ _ _ _ _ _ hnat',
        Board.mset_mset_self, ← hcell,
        Board.mset_mget_self b.board _ _ hfr hfc]
    simp only [Board.temporal_move, Board.move_to_coord, hcell,
      Option.map_some', hcb, hold, hback, hrestamp, hm4]
    cases hcase : Board.mget b.board to_.row.toNat to_.col.toNat with
    | none =>
      simp only [Option.isSome_none, Bool.false_eq_true, if_false]
      rw [← hcase, Board.mset_mget_self b.board _ _ htr htc]
    | some q =>
      simp only [Option.isSome_some, if_true]
      rw [Board.mset_mset_self, ← hcase,
        Board.mset_mget_self b.board _ _ htr htc]

end Chess

namespace Chess

/-! ## The cell/coordinate invariant and its preservation (C8), plus
concrete boards used by witnesses -/

namespace Board

/-- The Board invariant of the spec's data model: a piece stored at matrix
position `(r, c)` has stored coordinate `(r, c)`.  (The other half of the
invariant — each cell holds at most one piece — is representational: a
cell is one `Option Piece` in the matrix, in Rust as here.) -/
def MatInv (m : List (List (Option Piece))) : Prop :=
  ∀ (r c : Nat) (q : Piece),
    mget m r c = some q → q.coord = ⟨(r : Int), (c : Int)⟩

/-- The invariant, read on a board. -/
def Inv (b : Board) : Prop := MatInv b.board

/-- Bounded boolean form of `MatInv`, for concrete evaluation. -/
def matInvB (m : List (List (Option Piece))) : Bool :=
  (List.range m.length).all (fun r =>
    (List.range (m.getD r []).length).all (fun c =>
      match mget m r c with
      | some q => decide (q.coord = ⟨(r : Int), (c : Int)⟩)
      | none => true))

theorem mget_none_of_ge_row (m : List (List (Option Piece))) (r c : Nat)
    (h : m.length ≤ r) : mget m r c = none := by
  unfold mget
  rw [List.getD_eq_default _ _ h]
  rfl

theorem mget_none_of_ge_col (m : List (List (Option Piece))) (r c : Nat)
    (h : (m.getD r []).length ≤ c) : mget m r c = none := by
  unfold mget
  rw [List.getD_eq_default _ _ h]

theorem MatInv_of_matInvB (m : List (List (Option Piece)))
    (h : matInvB m = true) : MatInv m := by
  intro r c q hq
  by_cases hr : r < m.length
  · by_cases hc : c < (m.getD r []).length
    · unfold matInvB at h
      rw [List.all_eq_true] at h
      have h1 := h r (List.mem_range.mpr hr)
      rw [List.all_eq_true] at h1
      have h2 := h1 c (List.mem_range.mpr hc)
      rw [hq] at h2
      simpa using h2
    · rw [mget_none_of_ge_col m r c (by omega)] at hq
      exact absurd hq (by simp)
  · rw [mget_none_of_ge_row m r c (by omega)] at hq
    exact absurd hq (by simp)

theorem mset_out_of_range (m : List (List (Option Piece))) (r c : Nat)
    (v : Option Piece)
    (h : ¬(r < m.length ∧ c < (m.getD r []).length)) :
    mset m r c v = m := by
  unfold mset
  by_cases hr : r < m.length
  · have hc : (m.getD r []).length ≤ c := by omega
    rw [List.set_eq_of_length_le hc, set_getD_self _ _ _ hr]
  · exact List.set_eq_of_length_le (by omega)

/-- Writing a cell preserves the invariant when the written value (if a
piece) carries that cell's coordinate. -/
theorem MatInv_mset (m : List (List (Option Piece))) (r c : Nat)
    (v : Option Piece) (hm : MatInv m)
    (hv : ∀ q, v = some q → q.coord = ⟨(r : Int), (c : Int)⟩) :
    MatInv (mset m r c v) := by
  intro r' c' q hq
  by_cases hrange : r < m.length ∧ c < (m.getD r []).length
  · by_cases hne : r = r' ∧ c = c'
    · obtain ⟨h1, h2⟩ := hne
      subst h1
      subst h2
      rw [mget_mset_self m r c v hrange.1 hrange.2] at hq
      exact hv q hq
    · have : r ≠ r' ∨ c ≠ c' := by tauto
      rw [mget_mset_ne m r c r' c' v this] at hq
      exact hm r' c' q hq
  · rw [mset_out_of_range m r c v hrange] at hq
    exact hm r' c' q hq

end Board

instance {e a : Type} [DecidableEq e] [DecidableEq a] :
    DecidableEq (Except e a) := fun x y =>
  match x, y with
  | .ok v, .ok w =>
    if h : v = w then isTrue (by rw [h]) else
      isFalse (fun hh => h (Except.ok.inj hh))
  | .error v, .error w =>
    if h : v = w then isTrue (by rw [h]) else
      isFalse (fun hh => h (Except.error.inj hh))
  | .ok _, .error _ => isFalse (fun hh => Except.noConfusion hh)
  | .error _, .ok _ => isFalse (fun hh => Except.noConfusion hh)

instance (b : Board) : Decidable b.WF :=
  decidable_of_iff _ (Board.WF_iff_wfB b).symm

/-- A 2×2 board with a white rook at (0,0) and a black rook at (1,1),
castling-free, used as a concrete witness input. -/
def rookW : Piece := Piece.new_rook .White ⟨0, 0⟩

def rookB : Piece := Piece.new_rook .Black ⟨1, 1⟩

def bTwo : Board :=
  { board := [[some rookW, none], [none, some rookB]],
    info := BoardInfo.default, n_rows := 2, n_cols := 2 }

/-- Witness for C1: on `bTwo`, temporally moving the white rook onto the
black rook with a no-op callback hands back exactly `bTwo` (captured piece
restored). -/
theorem C1_witness :
    (bTwo.temporal_move ⟨0, 0⟩ ⟨1, 1⟩ (fun x => ((), x))).2 = bTwo :=
  (C1_temporal_move_restores bTwo ⟨0, 0⟩ ⟨1, 1⟩ rookW
    (fun x => ((), x)) (by decide) (by decide) (by decide) (by decide)
    (fun x => rfl)).2

end Chess

namespace Chess
namespace Board

theorem MatInv_move_to_coord (b : Board) (from_ to_ : Coord)
    (hm : MatInv b.board) (h0 : 0 ≤ to_.row) (h1 : 0 ≤ to_.col) :
    MatInv (b.move_to_coord from_ to_).2.board := by
  unfold move_to_coord
  simp only
  apply MatInv_mset
  · apply MatInv_mset _ _ _ _ hm
    intro q hq
    exact absurd hq (by simp)
  · intro q hq
    rw [Option.map_eq_some'] at hq
    obtain ⟨p0, _, hq2⟩ := hq
    rw [← hq2]
    simp only
    cases to_ with
    | mk r c =>
      simp only [Coord.mk.injEq]
      constructor
      · simp only at h0 ⊢
        omega
      · simp only at h1 ⊢
        omega

theorem Inv_temporal_move {T : Type} (b : Board) (from_ to_ : Coord)
    (cb : Board → T × Board) (hm : b.Inv)
    (hf0 : 0 ≤ from_.row) (hf1 : 0 ≤ from_.col)
    (ht0 : 0 ≤ to_.row) (ht1 : 0 ≤ to_.col)
    (hcb : ∀ x, x.Inv → (cb x).2.Inv) :
    (b.temporal_move from_ to_ cb).2.Inv := by
  have hb1 : ((b.move_to_coord from_ to_).2).Inv :=
    MatInv_move_to_coord b from_ to_ hm ht0 ht1
  have hb2 : ((cb (b.move_to_coord from_ to_).2).2).Inv := hcb _ hb1
  have hb3 : (((cb (b.move_to_coord from_ to_).2).2.move_to_coord to_
      from_).2).Inv :=
    MatInv_move_to_coord _ to_ from_ hb2 hf0 hf1
  have hval : ∀ q : Piece, (b.move_to_coord from_ to_).1 = some q →
      q.coord = ⟨(to_.row.toNat : Int), (to_.col.toNat : Int)⟩ := by
    intro q hq
    unfold move_to_coord at hq
    simp only at hq
    have hcell : mget b.board to_.row.toNat to_.col.toNat = some q := by
      by_cases hpair : from_.row.toNat = to_.row.toNat ∧
          from_.col.toNat = to_.col.toNat
      · obtain ⟨hr, hc⟩ := hpair
        rw [← hr, ← hc] at hq ⊢
        by_cases hin : from_.row.toNat < b.board.length ∧
            from_.col.toNat < (b.board.getD from_.row.toNat []).length
        · rw [mget_mset_self _ _ _ _ hin.1 hin.2] at hq
          exact Option.noConfusion hq
        · rwa [mset_out_of_range _ _ _ _ hin] at hq
      · rw [mget_mset_ne _ _ _ _ _ _ (by tauto)] at hq
        exact hq
    exact hm _ _ q hcell
  unfold temporal_move
  simp only
  by_cases hs : ((b.move_to_coord from_ to_).1).isSome = true
  · simp only [hs, if_true]
    exact MatInv_mset _ _ _ _ hb3 hval
  · simp only [hs]
    simp only [Bool.not_eq_true] at hs
    simp only [hs, Bool.false_eq_true, if_false]
    exact hb3

end Board
end Chess

namespace Chess
namespace Board

theorem Inv_set_piece (b : Board) (piece : Piece) (b' : Board)
    (hm : b.Inv) (h : b.set_piece piece = some b') : b'.Inv := by
  unfold set_piece at h
  by_cases hg : 0 ≤ piece.coord.row ∧
      piece.coord.row.toNat < b.board.length ∧ 0 ≤ piece.coord.col ∧
      piece.coord.col.toNat < (b.board.getD piece.coord.row.toNat []).length
  · rw [if_pos hg] at h
    obtain ⟨hg0, hg1, hg2, hg3⟩ := hg
    cases h
    apply MatInv_mset _ _ _ _ hm
    intro q hq
    cases hq
    rw [Int.toNat_of_nonneg hg0, Int.toNat_of_nonneg hg2]
  · rw [if_neg hg] at h
    exact Option.noConfusion h

theorem Inv_remove_piece (b : Board) (coord : Coord) (b' : Board)
    (hm : b.Inv) (h : b.remove_piece coord = some b') : b'.Inv := by
  unfold remove_piece at h
  by_cases hg : 0 ≤ coord.row ∧ coord.row.toNat < b.board.length ∧
      0 ≤ coord.col ∧
      coord.col.toNat < (b.board.getD coord.row.toNat []).length
  · rw [if_pos hg] at h
    cases h
    apply MatInv_mset _ _ _ _ hm
    intro q hq
    exact absurd hq (by simp)
  · rw [if_neg hg] at h
    exact Option.noConfusion h

end Board

/-- C8.  Every Board mutation operation preserves the data-model invariant
`Board.Inv` — a piece stored at matrix cell `(r, c)` carries stored
coordinate `(r, c)` (the "at most one piece per cell" half is
representational: a cell is a single `Option Piece`).  `set_piece`,
`remove_piece` and the default `Move::move_piece` preserve it whenever they
complete (their unchecked indexing aborts out of bounds, yielding no board
at all); `move_to_coord` and `temporal_move` preserve it on the in-bounds
coordinates Rust defines them on, `temporal_move` additionally whenever its
callback preserves it (e.g. the check evaluator's read-only closures). -/
theorem C8_mutations_preserve_invariant :
    (∀ (b : Board) (piece : Piece) (b' : Board),
      b.Inv → b.set_piece piece = some b' → b'.Inv) ∧
    (∀ (b : Board) (coord : Coord) (b' : Board),
      b.Inv → b.remove_piece coord = some b' → b'.Inv) ∧
    (∀ (b : Board) (from_ to_ : Coord),
      b.Inv → b.in_bounds to_ = true → (b.move_to_coord from_ to_).2.Inv) ∧
    (∀ (T : Type) (b : Board) (from_ to_ : Coord) (cb : Board → T × Board),
      b.Inv → b.in_bounds from_ = true → b.in_bounds to_ = true →
      (∀ x, x.Inv → (cb x).2.Inv) →
      (b.temporal_move from_ to_ cb).2.Inv) ∧
    (∀ (b : Board) (from_ to_ : Coord) (b' : Board),
      b.Inv → moveDefaultMovePiece b from_ to_ = some b' → b'.Inv) := by
  refine ⟨Board.Inv_set_piece, Board.Inv_remove_piece, ?_, ?_, ?_⟩
  · intro b from_ to_ hm ht
    unfold Board.in_bounds at ht
    simp only [decide_eq_true_eq] at ht
    exact Board.MatInv_move_to_coord b from_ to_ hm ht.1 ht.2.2.1
  · intro T b from_ to_ cb hm hf ht hcb
    unfold Board.in_bounds at hf ht
    simp only [decide_eq_true_eq] at hf ht
    exact Board.Inv_temporal_move b from_ to_ cb hm hf.1 hf.2.2.1 ht.1
      ht.2.2.1 hcb
  · intro b from_ to_ b' hm h
    unfold moveDefaultMovePiece at h
    cases hg : b.get_piece from_ with
    | error e =>
      rw [hg] at h
      cases h
      exact hm
    | ok cell =>
      cases cell with
      | none =>
        rw [hg] at h
        cases h
        exact hm
      | some piece =>
        rw [hg] at h
        simp only [Option.bind_eq_bind, Option.bind_eq_some] at h
        obtain ⟨b2, h2, h3⟩ := h
        exact Board.Inv_remove_piece b2 from_ b'
          (Board.Inv_set_piece b _ b2 hm h2) h3

/-- Witness for C8: relocating the white rook of `bTwo` onto the black
rook keeps the coordinate invariant. -/
theorem C8_witness : (bTwo.move_to_coord ⟨0, 0⟩ ⟨1, 1⟩).2.Inv :=
  C8_mutations_preserve_invariant.2.2.1 bTwo ⟨0, 0⟩ ⟨1, 1⟩
    (Board.MatInv_of_matInvB _ (by decide)) (by decide)

end Chess

namespace Chess
namespace Board

/-- On a well-formed board every in-range row has `n_cols` cells. -/
theorem WF_row_length (b : Board) (hwf : b.WF) (r : Nat)
    (h : r < b.board.length) : (b.board.getD r []).length = b.n_cols := by
  obtain ⟨hlen, hrows⟩ := hwf
  apply hrows
  rw [List.getD_eq_getElem?_getD, List.getElem?_eq_getElem h]
  exact List.getElem_mem h

end Board

/-- C7 (amended).  For every out-of-bounds coordinate on a well-formed
board, `get_piece` fails with the typed `OutOfBoundsError`; `set_piece` and
`remove_piece`, whose Rust bodies index the matrix without a bounds check,
abort with an index panic (modelled as `none`) instead of returning a typed
error. -/
theorem C7_oob_accessors (b : Board) (coord : Coord)
    (hwf : b.WF) (h : b.in_bounds coord = false) :
    b.get_piece coord = .error ⟨⟩ ∧
    b.remove_piece coord = none ∧
    ∀ p : Piece, p.coord = coord → b.set_piece p = none := by
  have hguard : ¬(0 ≤ coord.row ∧ coord.row.toNat < b.board.length ∧
      0 ≤ coord.col ∧
      coord.col.toNat < (b.board.getD coord.row.toNat []).length) := by
    intro hg
    obtain ⟨h0, h1, h2, h3⟩ := hg
    unfold Board.in_bounds at h
    simp only [decide_eq_false_iff_not, not_and, not_lt] at h
    rw [Board.WF_row_length b hwf _ h1] at h3
    have := hwf.1
    omega
  refine ⟨?_, ?_, ?_⟩
  · unfold Board.get_piece
    rw [h]
    simp
  · unfold Board.remove_piece
    rw [if_neg hguard]
  · intro p hp
    unfold Board.set_piece
    rw [hp, if_neg hguard]

/-- Counterexample for C7 as stated: at the out-of-bounds coordinate
(-1, 0) of `bTwo`, `set_piece` and `remove_piece` do not produce the typed
`OutOfBoundsError` — they abort on the unchecked matrix index (the `none`
of the panic model) — while `get_piece` alone fails with the typed error. -/
theorem C7_counterexample :
    bTwo.set_piece (Piece.new_pawn .White ⟨-1, 0⟩) = none ∧
    bTwo.remove_piece ⟨-1, 0⟩ = none ∧
    bTwo.get_piece ⟨-1, 0⟩ = .error ⟨⟩ := by
  refine ⟨?_, ?_, ?_⟩ <;> decide

/-- Witness for C7 (amended) at the out-of-bounds coordinate (2, 0) of the
2×2 board `bTwo`. -/
theorem C7_witness :
    bTwo.get_piece ⟨2, 0⟩ = .error ⟨⟩ ∧
    bTwo.remove_piece ⟨2, 0⟩ = none ∧
    bTwo.set_piece (Piece.new_pawn .White ⟨2, 0⟩) = none := by
  have h := C7_oob_accessors bTwo ⟨2, 0⟩ (by decide) (by decide)
  exact ⟨h.1, h.2.1, h.2.2 _ rfl⟩

end Chess

namespace Chess

/-! ## Concrete single-pawn boards (C5) -/

def emptyRow8 : List (Option Piece) := List.replicate 8 none

def emptyBoard8 : List (List (Option Piece)) := List.replicate 8 emptyRow8

/-- An 8×8 board holding a single black pawn on its pawn-start row, at
(1, 0), with the two squares ahead of it — (2, 0) and (3, 0) — empty. -/
def bPawnBlack : Board :=
  { board := emptyBoard8.set 1
      (emptyRow8.set 0 (some (Piece.new_pawn .Black ⟨1, 0⟩))),
    info := BoardInfo.default, n_rows := 8, n_cols := 8 }

/-- An 8×8 board holding a single white pawn on its pawn-start row, at
(6, 0). -/
def bPawnWhite : Board :=
  { board := emptyBoard8.set 6
      (emptyRow8.set 0 (some (Piece.new_pawn .White ⟨6, 0⟩))),
    info := BoardInfo.default, n_rows := 8, n_cols := 8 }

/-- C5 (evaluation at the failing input).  The two-square advance of the
black pawn from its start row (1,0) to (3,0) — the very move the
repository's own tests `test_opening` / `test_double_step` assert valid —
is rejected (`parse_direction` classifies it as North and the color filter
demands South for Black); and the white pawn's two-square advance from
(6,0) is accepted with destination (8,0), a cell outside the board that is
never inspected, because `check_two_forward_steps` re-checks the first
square twice instead of advancing to the destination. -/
theorem C5_two_step_behaviour :
    pawnIsMoveValid ⟨1, 0⟩ ⟨3, 0⟩ bPawnBlack = false ∧
    pawnIsMoveValid ⟨6, 0⟩ ⟨8, 0⟩ bPawnWhite = true := by
  constructor <;> decide

end Chess

namespace Chess

/-! ## C6: the sliding traversal against its declarative description -/

/-- The cell reached after `k` steps of `step` from `start`. -/
def stepTo (start step : Coord) (k : Nat) : Coord :=
  ⟨start.row + k * step.row, start.col + k * step.col⟩

/-- Declarative counterpart of the traversal, written from the claim: some
step count `k` between 1 and the range reaches `to_` from `start`, every
strictly intermediate cell is in bounds and empty, and the target cell is
in bounds and empty or enemy-held. -/
def TraverseSpec (b : Board) (c : Color) (to_ step start : Coord)
    (range : Nat) : Prop :=
  ∃ k : Nat, 1 ≤ k ∧ k ≤ range ∧ to_ = stepTo start step k ∧
    (∀ j : Nat, 1 ≤ j → j < k →
      b.get_piece (stepTo start step j) = .ok none) ∧
    (match b.get_piece to_ with
     | .ok none => True
     | .ok (some p) => p.color ≠ c
     | .error _ => False)

theorem Coord.add_def (a b : Coord) :
    a + b = ⟨a.row + b.row, a.col + b.col⟩ := rfl

theorem stepTo_one (s st : Coord) : stepTo s st 1 = s + st := by
  simp [stepTo, Coord.add_def]

theorem stepTo_succ (s st : Coord) (k : Nat) :
    stepTo s st (k + 1) = stepTo (s + st) st k := by
  simp only [stepTo, Coord.add_def, Coord.mk.injEq]
  push_cast
  constructor <;> ring

theorem stepTo_eq_one_step (s st : Coord) (k : Nat)
    (hstep : ¬(st.row = 0 ∧ st.col = 0)) (hk : 1 ≤ k)
    (h : stepTo s st k = s + st) : k = 1 := by
  simp only [stepTo, Coord.add_def, Coord.mk.injEq] at h
  obtain ⟨h1, h2⟩ := h
  have hh1 : (k : Int) * st.row = st.row := by linarith
  have hh2 : (k : Int) * st.col = st.col := by linarith
  have e1 : ((k : Int) - 1) * st.row = 0 := by
    rw [sub_mul, one_mul, hh1, sub_self]
  have e2 : ((k : Int) - 1) * st.col = 0 := by
    rw [sub_mul, one_mul, hh2, sub_self]
  rcases mul_eq_zero.mp e1 with hz | hz
  · omega
  · rcases mul_eq_zero.mp e2 with hz2 | hz2
    · omega
    · exact absurd ⟨hz, hz2⟩ hstep

/-- Shifting the declarative traversal one cell forward when the first
step lands on an in-bounds empty cell that is not the target. -/
theorem TraverseSpec_shift (b : Board) (c : Color) (to_ step start : Coord)
    (range : Nat) (hstep : ¬(step.row = 0 ∧ step.col = 0))
    (hnext : b.get_piece (start + step) = .ok none)
    (hto : start + step ≠ to_) :
    TraverseSpec b c to_ step start (range + 1) ↔
      TraverseSpec b c to_ step (start + step) range := by
  constructor
  · rintro ⟨k, hk1, hk2, hk3, hk4, hk5⟩
    have hkne : k ≠ 1 := by
      intro h1
      rw [h1, stepTo_one] at hk3
      exact hto hk3.symm
    obtain ⟨k', rfl⟩ : ∃ k', k = k' + 1 := ⟨k - 1, by omega⟩
    refine ⟨k', by omega, by omega, by rw [← stepTo_succ]; exact hk3,
      ?_, hk5⟩
    intro j hj1 hj2
    rw [← stepTo_succ]
    exact hk4 (j + 1) (by omega) (by omega)
  · rintro ⟨k, hk1, hk2, hk3, hk4, hk5⟩
    refine ⟨k + 1, by omega, by omega, by rw [stepTo_succ]; exact hk3,
      ?_, hk5⟩
    intro j hj1 hj2
    obtain ⟨j', rfl⟩ : ∃ j', j = j' + 1 := ⟨j - 1, by omega⟩
    rw [stepTo_succ]
    by_cases hj0 : j' = 0
    · subst hj0
      unfold stepTo
      cases hs : start + step with
      | mk a b2 =>
        rw [hs] at hnext
        simpa using hnext
    · exact hk4 j' (by omega) (by omega)

theorem canTraverseGo_iff (b : Board) (c : Color) (to_ step : Coord)
    (hstep : ¬(step.row = 0 ∧ step.col = 0)) :
    ∀ (range : Nat) (start : Coord),
      canTraverseGo b c to_ step range start = true ↔
        TraverseSpec b c to_ step start range := by
  intro range
  induction range with
  | zero =>
    intro start
    constructor
    · intro h
      exact absurd h (by simp [canTraverseGo])
    · rintro ⟨k, hk1, hk2, _⟩
      omega
  | succ n ih =>
    intro start
    rw [canTraverseGo]
    cases hnext : b.get_piece (start + step) with
    | error e =>
      simp only [hnext]
      constructor
      · intro h
        exact absurd h (by simp)
      · rintro ⟨k, hk1, hk2, hk3, hk4, hk5⟩
        by_cases hk : k = 1
        · subst hk
          rw [stepTo_one] at hk3
          rw [hk3, hnext] at hk5
          simp at hk5
        · have := hk4 1 le_rfl (by omega)
          rw [stepTo_one, hnext] at this
          exact Except.noConfusion this
    | ok cell =>
      simp only [hnext]
      by_cases hto : start + step = to_
      · rw [if_pos hto]
        cases cell with
        | none =>
          constructor
          · intro _
            refine ⟨1, le_rfl, by omega, by rw [stepTo_one]; exact hto.symm,
              by omega, ?_⟩
            rw [← hto, hnext]
            trivial
          · intro _
            rfl
        | some p =>
          constructor
          · intro h
            refine ⟨1, le_rfl, by omega, by rw [stepTo_one]; exact hto.symm,
              by omega, ?_⟩
            rw [← hto, hnext]
            simpa using h
          · rintro ⟨k, hk1, hk2, hk3, hk4, hk5⟩
            rw [← hto, hnext] at hk5
            simpa using hk5
      · rw [if_neg hto]
        cases cell with
        | some p =>
          simp only [Option.isSome_some, if_true]
          constructor
          · intro h
            exact absurd h (by simp)
          · rintro ⟨k, hk1, hk2, hk3, hk4, hk5⟩
            by_cases hk : k = 1
            · subst hk
              rw [stepTo_one] at hk3
              exact absurd hk3.symm hto
            · have := hk4 1 le_rfl (by omega)
              rw [stepTo_one, hnext] at this
              exact absurd (Except.ok.inj this) (by simp)
        | none =>
          simp only [Option.isSome_none, Bool.false_eq_true, if_false]
          rw [ih (start + step)]
          exact (TraverseSpec_shift b c to_ step start n hstep hnext
            hto).symm

theorem direction_step_ne_zero (d : Direction) :
    ¬((d.get_step).row = 0 ∧ (d.get_step).col = 0) := by
  cases d <;> simp [Direction.get_step]

/-- A white rook at (4,0) with a friendly white pawn two squares ahead at
(4,2), on an otherwise empty 8×8 board. -/
def rookC6 : Piece := Piece.new_rook .White ⟨4, 0⟩

def bRookPawn : Board :=
  { board := emptyBoard8.set 4
      ((emptyRow8.set 0 (some rookC6)).set 2
        (some (Piece.new_pawn .White ⟨4, 2⟩))),
    info := BoardInfo.default, n_rows := 8, n_cols := 8 }

/-- C6.  The shared sliding traversal `can_traverse` (to which
`Diagonal::is_move_valid` delegates, and whose loop `Line::is_move_valid`
repeats verbatim) succeeds exactly when some number of steps `k ≤
max_range` of the direction's unit vector reaches the target with every
strictly intermediate cell in-bounds and empty and the target in-bounds
and empty or enemy-held; `Line`/`Diagonal` reduce to that traversal on
orthogonal/diagonal parsed directions and reject the other directions; and
concretely a rook with a friendly pawn two squares ahead can move to the
square strictly before the pawn but not onto or past it. -/
theorem C6_sliding_traversal :
    (∀ (b : Board) (from_piece : Piece) (to_ step : Coord)
      (max_range : Nat), ¬(step.row = 0 ∧ step.col = 0) →
      (can_traverse b from_piece to_ step max_range = true ↔
        TraverseSpec b from_piece.color to_ step from_piece.coord
          max_range)) ∧
    (∀ (mr : Option Nat) (from_ to_ : Coord) (b : Board) (fp : Piece)
      (d : Direction), b.get_piece from_ = .ok (some fp) →
      parse_direction from_ to_ = .ok d →
      (d = .North ∨ d = .South ∨ d = .East ∨ d = .West) →
      (lineIsMoveValid mr from_ to_ b = true ↔
        TraverseSpec b fp.color to_ d.get_step from_
          (mr.getD (b.max_cells_direction d)))) ∧
    (∀ (mr : Option Nat) (from_ to_ : Coord) (b : Board) (fp : Piece)
      (d : Direction), b.get_piece from_ = .ok (some fp) →
      parse_direction from_ to_ = .ok d →
      (d = .NorthEast ∨ d = .NorthWest ∨ d = .SouthEast ∨
        d = .SouthWest) →
      (diagIsMoveValid mr from_ to_ b = true ↔
        TraverseSpec b fp.color to_ d.get_step fp.coord
          (mr.getD (b.max_cells_direction d)))) ∧
    (lineIsMoveValid none ⟨4, 0⟩ ⟨4, 2⟩ bRookPawn = false ∧
      lineIsMoveValid none ⟨4, 0⟩ ⟨4, 3⟩ bRookPawn = false ∧
      lineIsMoveValid none ⟨4, 0⟩ ⟨4, 1⟩ bRookPawn = true) := by
  refine ⟨?_, ?_, ?_, by refine ⟨?_, ?_, ?_⟩ <;> decide⟩
  · intro b fp to_ step mr hstep
    exact canTraverseGo_iff b fp.color to_ step hstep mr fp.coord
  · intro mr from_ to_ b fp d hp hd hortho
    unfold lineIsMoveValid
    rw [hp, hd]
    rcases hortho with h | h | h | h <;> subst h <;>
      exact canTraverseGo_iff b fp.color to_ _
        (direction_step_ne_zero _) _ from_
  · intro mr from_ to_ b fp d hp hd hdiag
    unfold diagIsMoveValid
    rw [hp, hd]
    rcases hdiag with h | h | h | h <;> subst h <;>
      exact canTraverseGo_iff b fp.color to_ _
        (direction_step_ne_zero _) _ fp.coord

/-- Witness for C6, instantiating the traversal equivalence on the
rook-and-pawn board for the one-square rook move east. -/
theorem C6_witness :
    can_traverse bRookPawn rookC6 ⟨4, 1⟩ ⟨0, 1⟩ 8 = true ↔
      TraverseSpec bRookPawn rookC6.color ⟨4, 1⟩ ⟨0, 1⟩ rookC6.coord 8 :=
  C6_sliding_traversal.1 bRookPawn rookC6 ⟨4, 1⟩ ⟨0, 1⟩ 8 (by decide)

end Chess

namespace Chess

theorem mget_replicate_none (n m r c : Nat) :
    Board.mget (List.replicate n (List.replicate m (none : Option Piece)))
      r c = none := by
  unfold Board.mget
  simp only [List.getD_eq_getElem?_getD, List.getElem?_replicate]
  by_cases hr : r < n <;> by_cases hc : c < m <;> simp [hr, hc]

/-- No piece built by `char_to_piece` has type `Queen`. -/
theorem char_to_piece_no_queen (c : Char) (row col : Int) (p : Piece)
    (h : char_to_piece c row col = .ok p) : p.piece ≠ .Queen := by
  unfold char_to_piece at h
  split at h
  · exact Except.noConfusion h
  · unfold char_to_piece_body at h
    split at h <;>
      first
        | exact Except.noConfusion h
        | (cases Except.ok.inj h
           simp [Piece.new_pawn, Piece.new_knight, Piece.new_bishop,
             Piece.new_rook, Piece.new_king, Piece.new])

theorem parseFenRowChars_no_queen (row_idx : Int) :
    ∀ (chars : List Char) (col : Int) (ps : List Piece) (col' : Int),
      parseFenRowChars row_idx chars col = .ok (ps, col') →
      ∀ p ∈ ps, p.piece ≠ .Queen := by
  intro chars
  induction chars with
  | nil =>
    intro col ps col' h p hp
    unfold parseFenRowChars at h
    cases Except.ok.inj h
    exact absurd hp (by simp)
  | cons c rest ih =>
    intro col ps col' h p hp
    unfold parseFenRowChars at h
    split at h
    · exact ih _ _ _ h p hp
    · split at h
      · cases hcp : char_to_piece c row_idx col with
        | error e =>
          rw [hcp] at h
          exact Except.noConfusion h
        | ok piece =>
          rw [hcp] at h
          cases hrec : parseFenRowChars row_idx rest (col + 1) with
          | error e =>
            rw [hrec] at h
            exact Except.noConfusion h
          | ok pr =>
            obtain ⟨ps1, col1⟩ := pr
            rw [hrec] at h
            cases Except.ok.inj h
            rcases List.mem_cons.mp hp with h1 | h1
            · subst h1
              exact char_to_piece_no_queen c row_idx col p hcp
            · exact ih _ _ _ hrec p h1
      · exact Except.noConfusion h

theorem parseFenRows_no_queen :
    ∀ (rows : List (List Char)) (idx : Int) (pieces : List Piece),
      parseFenRows rows idx = .ok pieces →
      ∀ p ∈ pieces, p.piece ≠ .Queen := by
  intro rows
  induction rows with
  | nil =>
    intro idx pieces h p hp
    unfold parseFenRows at h
    cases Except.ok.inj h
    exact absurd hp (by simp)
  | cons row rest ih =>
    intro idx pieces h p hp
    unfold parseFenRows at h
    cases hrow : parseFenRowChars idx row 0 with
    | error e =>
      rw [hrow] at h
      exact Except.noConfusion h
    | ok pc =>
      obtain ⟨ps0, col0⟩ := pc
      rw [hrow] at h
      dsimp only at h
      by_cases hcol : col0 ≠ OFFICIAL_BOARD_COLS
      · rw [if_pos hcol] at h
        exact Except.noConfusion h
      · rw [if_neg hcol] at h
        cases hrec : parseFenRows rest (idx + 1) with
        | error e =>
          rw [hrec] at h
          exact Except.noConfusion h
        | ok ps' =>
          rw [hrec] at h
          cases Except.ok.inj h
          rcases List.mem_append.mp hp with h1 | h1
          · exact parseFenRowChars_no_queen idx row 0 ps0 col0 hrow p h1
          · exact ih _ _ hrec p h1

/-- Reading a cell after a successful `set_piece` yields the new piece or
whatever the old board held there. -/
theorem get_piece_set_piece (b b' : Board) (q : Piece) (coord : Coord)
    (p : Piece) (hs : b.set_piece q = some b')
    (hg : b'.get_piece coord = .ok (some p)) :
    p = q ∨ b.get_piece coord = .ok (some p) := by
  unfold Board.set_piece at hs
  by_cases hguard : 0 ≤ q.coord.row ∧
      q.coord.row.toNat < b.board.length ∧ 0 ≤ q.coord.col ∧
      q.coord.col.toNat < (b.board.getD q.coord.row.toNat []).length
  · rw [if_pos hguard] at hs
    obtain rfl := Option.some.inj hs
    unfold Board.get_piece at hg ⊢
    split at hg
    · rename_i hin
      have hcell := Except.ok.inj hg
      by_cases hpair : q.coord.row.toNat = coord.row.toNat ∧
          q.coord.col.toNat = coord.col.toNat
      · left
        obtain ⟨h1, h2⟩ := hpair
        rw [← h1, ← h2] at hcell
        rw [Board.mget_mset_self _ _ _ _ hguard.2.1 hguard.2.2.2] at hcell
        exact (Option.some.inj hcell).symm
      · right
        rw [Board.mget_mset_ne _ _ _ _ _ _ (by tauto)] at hcell
        rw [if_pos (show b.in_bounds coord = true from hin), hcell]
    · exact Except.noConfusion hg
  · rw [if_neg hguard] at hs
    exact Option.noConfusion hs

/-- C10.  The FEN queen characters build pawns: `char_to_piece` maps `'q'`
to a black pawn and `'Q'` to a white pawn (each carrying only the pawn
movement rule); no piece it builds has type `Queen`; hence the piece list
of a successfully parsed placement field contains no queen, and a board
built from it the way `Board::from_fen` does answers no `get_piece` query
with a piece of type `Queen`. -/
theorem C10_fen_queen_is_pawn :
    (∀ (row col : Int) (p : Piece),
      char_to_piece 'q' row col = .ok p →
        p = Piece.new_pawn .Black ⟨row, col⟩ ∧ p.piece = .Pawn ∧
          p.moves = [.pawnMove]) ∧
    (∀ (row col : Int) (p : Piece),
      char_to_piece 'Q' row col = .ok p →
        p = Piece.new_pawn .White ⟨row, col⟩ ∧ p.piece = .Pawn ∧
          p.moves = [.pawnMove]) ∧
    (∀ (c : Char) (row col : Int) (p : Piece),
      char_to_piece c row col = .ok p → p.piece ≠ .Queen) ∧
    (∀ (rows : List (List Char)) (idx : Int) (pieces : List Piece)
      (info : BoardInfo) (b : Board),
      parseFenRows rows idx = .ok pieces →
      fromFenBoard pieces info = some b →
      ∀ (coord : Coord) (p : Piece),
        b.get_piece coord = .ok (some p) → p.piece ≠ .Queen) := by
  refine ⟨?_, ?_, char_to_piece_no_queen, ?_⟩
  · intro row col p h
    rw [show char_to_piece 'q' row col =
      .ok (Piece.new_pawn .Black ⟨row, col⟩) from rfl] at h
    have := (Except.ok.inj h).symm
    subst this
    exact ⟨rfl, rfl, rfl⟩
  · intro row col p h
    rw [show char_to_piece 'Q' row col =
      .ok (Piece.new_pawn .White ⟨row, col⟩) from rfl] at h
    have := (Except.ok.inj h).symm
    subst this
    exact ⟨rfl, rfl, rfl⟩
  · intro rows idx pieces info b hparse hbuild coord p hget
    have hnq : ∀ q ∈ pieces, q.piece ≠ .Queen :=
      parseFenRows_no_queen rows idx pieces hparse
    unfold fromFenBoard at hbuild
    rw [Option.map_eq_some'] at hbuild
    obtain ⟨b0, hfold, hb⟩ := hbuild
    subst hb
    have hget0 : b0.get_piece coord = .ok (some p) := hget
    clear hget
    -- fold invariant: every piece readable from the folded board is a
    -- parsed piece or a piece of the start board
    have main : ∀ (ps : List Piece) (bs bf : Board),
        (∀ q ∈ ps, q.piece ≠ .Queen) →
        (∀ q : Piece, bs.get_piece coord = .ok (some q) →
          q.piece ≠ .Queen) →
        ps.foldlM (fun x piece => Board.set_piece x piece) bs = some bf →
        ∀ q : Piece, bf.get_piece coord = .ok (some q) →
          q.piece ≠ .Queen := by
      intro ps
      induction ps with
      | nil =>
        intro bs bf hps hbs hfold q hq
        cases Option.some.inj hfold
        exact hbs q hq
      | cons hd tl ih =>
        intro bs bf hps hbs hfold q hq
        rw [List.foldlM_cons] at hfold
        cases hset : bs.set_piece hd with
        | none =>
          rw [hset] at hfold
          exact Option.noConfusion hfold
        | some bmid =>
          rw [hset] at hfold
          refine ih bmid bf (fun x hx => hps x (List.mem_cons_of_mem _ hx))
            ?_ hfold q hq
          intro q' hq'
          rcases get_piece_set_piece bs bmid hd coord q' hset hq' with
            h1 | h1
          · rw [h1]
            exact hps hd (List.mem_cons_self _ _)
          · exact hbs q' h1
    refine main pieces (Board.new none none) b0 hnq ?_ hfold p hget0
    intro q hq
    unfold Board.get_piece at hq
    split at hq
    · rw [show (Board.new none none).board =
        List.replicate 8 (List.replicate 8 none) from rfl,
        mget_replicate_none] at hq
      exact absurd (Except.ok.inj hq) (by simp)
    · exact Except.noConfusion hq

/-- Witness for C10 on the queen characters at (0, 3). -/
theorem C10_witness :
    (char_to_piece 'q' 0 3 = .ok (Piece.new_pawn .Black ⟨0, 3⟩) ∧
      (Piece.new_pawn .Black ⟨0, 3⟩).piece = .Pawn) ∧
    (Piece.new_pawn .Black ⟨0, 3⟩).piece ≠ .Queen := by
  refine ⟨⟨rfl, ?_⟩, ?_⟩
  · exact ((C10_fen_queen_is_pawn.1 0 3 _ rfl).2).1
  · exact C10_fen_queen_is_pawn.2.2.1 'q' 0 3 _ rfl

end Chess

namespace Chess

/-! ## C9: defensive defaults and typed primitive failures -/

/-- C9 (amended).  `is_check` and `is_mate` return `false` both when the
probed coordinate holds no piece and when it is out of bounds — the two
cases land in the same defensive `_ => return false` match arm — while the
underlying primitives signal their failures as typed values rather than
panicking: `get_piece` yields `OutOfBoundsError` out of bounds, and a
delta that is not one of the eight canonical compass directions makes
`parse_direction` yield a `DirectionError`, which each direction-parsing
movement rule consumes as "move invalid". -/
theorem C9_failure_semantics :
    (∀ (fuel : Nat) (coord : Coord) (b : Board) (e a : List Piece),
      (b.get_piece coord = .ok none ∨ b.get_piece coord = .error ⟨⟩) →
      isCheck fuel coord b e a = false ∧ isMate fuel coord b e a = false) ∧
    (∀ (b : Board) (coord : Coord), b.in_bounds coord = false →
      b.get_piece coord = .error ⟨⟩) ∧
    (∀ (from_ to_ : Coord) (err : DirectionError) (mr : Option Nat)
      (b : Board), parse_direction from_ to_ = .error err →
      lineIsMoveValid mr from_ to_ b = false ∧
      diagIsMoveValid mr from_ to_ b = false ∧
      pawnIsMoveValid from_ to_ b = false) := by
  refine ⟨?_, ?_, ?_⟩
  · intro fuel coord b e a h
    cases fuel with
    | zero => exact ⟨rfl, rfl⟩
    | succ n =>
      constructor
      · rw [isCheck]
        rcases h with h | h <;> rw [h]
      · rw [isMate]
        rcases h with h | h <;> rw [h]
  · intro b coord h
    unfold Board.get_piece
    rw [h]
    simp
  · intro from_ to_ err mr b h
    refine ⟨?_, ?_, ?_⟩
    · unfold lineIsMoveValid
      cases hp : b.get_piece from_ with
      | error e2 => rfl
      | ok cell =>
        cases cell with
        | none => rfl
        | some fp => rw [h]
    · unfold diagIsMoveValid
      cases hp : b.get_piece from_ with
      | error e2 => rfl
      | ok cell =>
        cases cell with
        | none => rfl
        | some fp => rw [h]
    · unfold pawnIsMoveValid
      cases hp : b.get_piece from_ with
      | error e2 => rfl
      | ok cell =>
        cases cell with
        | none => rfl
        | some fp => rw [h]

/-- Counterexample for C9 as stated: probing the out-of-bounds coordinate
(-1, 0) makes `get_piece` produce the typed `OutOfBoundsError`, yet
`is_check`/`is_mate` do not propagate any failure — they return the same
plain `false` as the empty-cell defensive default (their return type has
no failure channel). -/
theorem C9_counterexample :
    bTwo.get_piece ⟨-1, 0⟩ = .error ⟨⟩ ∧
    isCheck 5 ⟨-1, 0⟩ bTwo [] [] = false ∧
    isMate 5 ⟨-1, 0⟩ bTwo [] [] = false := by
  refine ⟨by decide, by rfl, by rfl⟩

/-- Witness for C9 (amended) at the empty in-bounds cell (0, 1) of `bTwo`
and at a knight-shaped non-direction delta. -/
theorem C9_witness :
    (isCheck 3 ⟨0, 1⟩ bTwo [] [] = false ∧
      isMate 3 ⟨0, 1⟩ bTwo [] [] = false) ∧
    (lineIsMoveValid none ⟨0, 0⟩ ⟨2, 1⟩ bTwo = false ∧
      diagIsMoveValid none ⟨0, 0⟩ ⟨2, 1⟩ bTwo = false ∧
      pawnIsMoveValid ⟨0, 0⟩ ⟨2, 1⟩ bTwo = false) :=
  ⟨C9_failure_semantics.1 3 ⟨0, 1⟩ bTwo [] [] (Or.inl (by decide)),
    C9_failure_semantics.2.2 ⟨0, 0⟩ ⟨2, 1⟩ .InvalidDirection none bTwo
      (by decide)⟩

end Chess

namespace Chess

/-! ## C2: the self-exposure filter of `is_check` -/

/-- The pinned-bishop position of the repository's own
`not_a_real_check` test (`8/8/8/8/R2b3k/8/8/K7`): a white rook at (4,0), a
black bishop at (4,3) pinned against the black king at (4,7), and the
probed white king at (7,0). -/
def rookPin : Piece := Piece.new_rook .White ⟨4, 0⟩

def bishopPin : Piece := Piece.new_bishop .Black ⟨4, 3⟩

def blackKingPin : Piece := Piece.new_king .Black ⟨4, 7⟩

def whiteKingPin : Piece := Piece.new_king .White ⟨7, 0⟩

def bPin : Board :=
  { board := (emptyBoard8.set 4
      (((emptyRow8.set 0 (some rookPin)).set 3 (some bishopPin)).set 7
        (some blackKingPin))).set 7
      (emptyRow8.set 0 (some whiteKingPin)),
    info := BoardInfo.default, n_rows := 8, n_cols := 8 }

/-- The white pieces of `bPin` (`get_all_pieces` scan order). -/
def enemiesPin : List Piece := [rookPin, whiteKingPin]

/-- The black pieces of `bPin` (`get_all_pieces` scan order). -/
def alliesPin : List Piece := [bishopPin, blackKingPin]

/-- Counterexample for C2 as stated.  `src/check.rs` has no
`is_mate_probe` parameter: its only `is_check` takes the two piece lists
and applies the self-exposure filter on every call — including the calls
`is_mate` makes, which pass the same arguments.  On `bPin` the pinned
black bishop can legally move to the probed white king's square, yet
`is_check` rejects it, so "any piece that can legally move to the probed
square counts as an attacker" fails for the evaluator that mate detection
actually invokes. -/
theorem C2_counterexample :
    enemiesPin = bPin.get_all_pieces .White ∧
    alliesPin = bPin.get_all_pieces .Black ∧
    canMove 4 bishopPin ⟨7, 0⟩ bPin = true ∧
    isCheck 5 ⟨7, 0⟩ bPin enemiesPin alliesPin = false := by
  refine ⟨by decide, by decide, by rfl, by rfl⟩

/-- C2 (amended).  The four-argument `is_check` of `src/check.rs` counts a
piece as attacking the probed square only after the self-exposure test, in
every call: it returns `true` exactly when some piece of the attacker list
can legally move to the probed square and, after temporally relocating
that piece onto its own king's square, no piece of the defender list can
move to that king's square.  There is no `is_mate_probe` parameter and no
bypass: `is_mate`'s simulations invoke this same evaluator with the same
lists. -/
theorem C2_is_check_always_filters (fuel : Nat) (coord : Coord) (b : Board)
    (enemy_pieces ally_pieces : List Piece) (piece ally_king : Piece)
    (hp : b.get_piece coord = .ok (some piece))
    (hk : b.getKing piece.color.opposite = some ally_king) :
    isCheck (fuel + 1) coord b enemy_pieces ally_pieces = true ↔
      ∃ p ∈ ally_pieces, canMove fuel p coord b = true ∧
        (b.temporal_move p.coord ally_king.coord (fun board =>
          (enemy_pieces.any (fun en =>
            canMove fuel en ally_king.coord board), board))).1 = false := by
  rw [isCheck, hp]
  dsimp only
  rw [hk]
  simp only [List.any_eq_true, Bool.and_eq_true, Bool.not_eq_true']

/-- Witness for C2 (amended), instantiated on `bPin`: the equivalence at
fuel 5 for the probe of the white king's square. -/
theorem C2_witness :
    isCheck 5 ⟨7, 0⟩ bPin enemiesPin alliesPin = true ↔
      ∃ p ∈ alliesPin, canMove 4 p ⟨7, 0⟩ bPin = true ∧
        (bPin.temporal_move p.coord blackKingPin.coord (fun board =>
          (enemiesPin.any (fun en =>
            canMove 4 en blackKingPin.coord board), board))).1 = false :=
  C2_is_check_always_filters 4 ⟨7, 0⟩ bPin enemiesPin alliesPin
    whiteKingPin blackKingPin (by decide) (by decide)

end Chess

namespace Chess

/-! ## C3: the `is_mate` search -/

/-- The first component of `temporal_move` is the callback's value on the
intermediate board (definitionally). -/
theorem temporal_fst {T : Type} (b : Board) (from_ to_ : Coord)
    (g : Board → T) :
    (b.temporal_move from_ to_ (fun x => (g x, x))).1 =
      g (b.move_to_coord from_ to_).2 := rfl

/-- C3.  With a king standing on the probed coordinate, `is_mate` returns
`true` exactly when (a) every legal king move, simulated via
`temporal_move`, still leaves the king's new square in check, and (b) no
other piece of the king's side has a legal move whose simulation removes
the check on the probed square.  The stated evaluation order is the
structure of `isMate`'s definition: the king-move loop is the outer `if`
with its early `false` on any safe escape, and only its failure reaches
the inner loop over the other pieces' destinations, which returns `false`
on the first simulated move that clears the check and `true` when none
does. -/
theorem C3_is_mate_characterisation (fuel : Nat) (coord : Coord)
    (b : Board) (enemy_pieces ally_pieces : List Piece) (king : Piece)
    (hk : b.get_piece coord = .ok (some king))
    (hking : king.piece = .King) :
    isMate (fuel + 1) coord b enemy_pieces ally_pieces = true ↔
      ((∀ to_c ∈ getMoves fuel king b,
        (b.temporal_move king.coord to_c (fun nb =>
          (isCheck fuel to_c nb enemy_pieces ally_pieces, nb))).1 = true) ∧
      (∀ p ∈ enemy_pieces, p.coord ≠ coord →
        ∀ rule ∈ p.moves, ∀ to_c ∈ ruleAllowedMoves fuel rule p.coord b,
          (b.temporal_move p.coord to_c (fun nb =>
            (isCheck fuel coord nb enemy_pieces ally_pieces, nb))).1 =
            true)) := by
  rw [isMate, hk]
  dsimp only
  simp only [temporal_fst, List.any_eq_true, Bool.and_eq_true,
    decide_eq_true_iff, Bool.not_eq_true']
  by_cases h1 : ∃ to_c ∈ getMoves fuel king b,
      isCheck fuel to_c (b.move_to_coord king.coord to_c).2 enemy_pieces
        ally_pieces = false
  · rw [if_pos h1]
    simp only [Bool.false_eq_true, false_iff]
    rintro ⟨hA, _⟩
    obtain ⟨to_c, hmem, hval⟩ := h1
    have hA2 := hA to_c hmem
    rw [hA2] at hval
    exact absurd hval (by simp)
  · rw [if_neg h1]
    by_cases h2 : ∃ p ∈ enemy_pieces, p.coord ≠ coord ∧
        ∃ rule ∈ p.moves, ∃ to_c ∈ ruleAllowedMoves fuel rule p.coord b,
          isCheck fuel coord (b.move_to_coord p.coord to_c).2 enemy_pieces
            ally_pieces = false
    · rw [if_pos h2]
      simp only [Bool.false_eq_true, false_iff]
      rintro ⟨_, hB⟩
      obtain ⟨p, hpmem, hne, rule, hrmem, to_c, htmem, hval⟩ := h2
      have hB2 := hB p hpmem hne rule hrmem to_c htmem
      rw [hB2] at hval
      exact absurd hval (by simp)
    · rw [if_neg h2]
      simp only [true_iff]
      push_neg at h1 h2
      constructor
      · intro to_c hmem
        have := h1 to_c hmem
        cases hbool : isCheck fuel to_c (b.move_to_coord king.coord
            to_c).2 enemy_pieces ally_pieces with
        | false => exact absurd hbool this
        | true => rfl
      · intro p hpmem hne rule hrmem to_c htmem
        have := h2 p hpmem hne rule hrmem to_c htmem
        cases hbool : isCheck fuel coord (b.move_to_coord p.coord
            to_c).2 enemy_pieces ally_pieces with
        | false => exact absurd hbool this
        | true => rfl

end Chess

namespace Chess

/-- Witness for C3, instantiating the characterisation for the white king
of `bPin` at fuel 4. -/
theorem C3_witness :
    isMate 4 ⟨7, 0⟩ bPin enemiesPin alliesPin = true ↔
      ((∀ to_c ∈ getMoves 3 whiteKingPin bPin,
        (bPin.temporal_move whiteKingPin.coord to_c (fun nb =>
          (isCheck 3 to_c nb enemiesPin alliesPin, nb))).1 = true) ∧
      (∀ p ∈ enemiesPin, p.coord ≠ ⟨7, 0⟩ →
        ∀ rule ∈ p.moves, ∀ to_c ∈ ruleAllowedMoves 3 rule p.coord bPin,
          (bPin.temporal_move p.coord to_c (fun nb =>
            (isCheck 3 ⟨7, 0⟩ nb enemiesPin alliesPin, nb))).1 = true)) :=
  C3_is_mate_characterisation 3 ⟨7, 0⟩ bPin enemiesPin alliesPin
    whiteKingPin (by decide) (by decide)

end Chess

namespace Chess

/-! ## C4: castling path safety probes the wrong squares -/

/-- White king on e1 = (7,4) and rook on h1 = (7,7), black rook on
f3 = (5,5) attacking the king's transit square f1 = (7,5), black king far
away on a8 = (0,0); White holds the kingside right (king destination
g1 = (7,6), rook h1). -/
def whiteKingC4 : Piece := Piece.new_king .White ⟨7, 4⟩

def whiteRookC4 : Piece := Piece.new_rook .White ⟨7, 7⟩

def blackRookC4 : Piece := Piece.new_rook .Black ⟨5, 5⟩

def blackKingC4 : Piece := Piece.new_king .Black ⟨0, 0⟩

/-- White's single kingside castling right on `bCastle`. -/
def rightC4 : CastlingRights := { new_king := ⟨7, 6⟩, rook := ⟨7, 7⟩ }

def infoC4 : BoardInfo :=
  { turn := .White, castling := [(Color.White, [rightC4])],
    en_passant := none, halfmove_clock := 0, fullmove_number := 1 }

def bCastle : Board :=
  { board := (((emptyBoard8.set 0
      (emptyRow8.set 0 (some blackKingC4))).set 5
      (emptyRow8.set 5 (some blackRookC4))).set 7
      ((emptyRow8.set 4 (some whiteKingC4)).set 7 (some whiteRookC4))),
    info := infoC4, n_rows := 8, n_cols := 8 }

/-- C4 (evaluation at the failing input).  `Castle::is_move_valid` accepts
the kingside castle e1→g1 on `bCastle` even though the black rook on f3
attacks the transit square f1: `can_safely_traverse` derives its walking
step from `parse_direction(new_king, king)` — the direction pointing from
the destination back to the king — so it probes e1, d1 and c1 (the squares
mirrored away from the destination) instead of e1, f1 and g1.  The second
and third conjuncts show f1 is genuinely attacked: the black rook can
legally move there, and probing f1 with the king temporally placed on it
reports check. -/
theorem C4_castle_wrong_path :
    castleIsMoveValid 6 ⟨7, 4⟩ ⟨7, 6⟩ bCastle = true ∧
    canMove 5 blackRookC4 ⟨7, 5⟩ bCastle = true ∧
    (bCastle.temporal_move ⟨7, 4⟩ ⟨7, 5⟩ (fun board =>
      (isCheckProbe 5 ⟨7, 5⟩ board false, board))).1 = true := by
  refine ⟨by rfl, by rfl, by rfl⟩

end Chess
